import Mathlib

/-!
Verification of the Lefi financial-automation scripting system.

The repository splits into two parts:
* a React web UI (`src/web/...`, `src/unnamed/part_001..part_008`) whose
  state containers (`ScriptsContext.tsx`, `DrawerContext`) are embedded
  below in the `Web` namespace, translated directly from the TypeScript;
* the scripting engine itself (parser, node model, Indexer, Evaluator,
  job/execution-policy state machine), which the design documents
  (`spec`, `ARQUITECTURE.md`, `USECASES.md`, `src/src/nodes/nodes.md`,
  `src/unnamed/part_000`) specify but whose code is not present in this
  snapshot.  The engine is modelled from those documents in the `Lefi`
  namespace; every such definition carries a doc comment saying so.
-/

namespace Web

/-- `ScriptEvent` from `src/web/src/contexts/ScriptsContext.tsx` lines 4-8:
`{id: string, eventDate: Date, script: string}`.  A `Date` is embedded as
its epoch-millisecond value. -/
structure ScriptEvent where
  id : String
  eventDate : Int
  script : String
deriving DecidableEq, Repr

/-- `ScriptMacros` from `ScriptsContext.tsx` lines 10-14:
`{id: string, key: string, value: string}`. -/
structure ScriptMacros where
  id : String
  key : String
  value : String
deriving DecidableEq, Repr

/-- `Script` from `ScriptsContext.tsx` lines 16-21:
`{id: string, referenceDate: Date, macros: ScriptMacros[], events?: ScriptEvent[]}`.
The optional `events` field is an `Option`. -/
structure Script where
  id : String
  referenceDate : Int
  macros : List ScriptMacros
  events : Option (List ScriptEvent)
deriving DecidableEq, Repr

/-- The field names of the stored `Script` interface, in declaration order
(`ScriptsContext.tsx` lines 16-21). -/
def scriptFields : List String :=
  ["id", "referenceDate", "macros", "events"]

/-- `addScript` from `ScriptsContext.tsx` lines 46-48:
`setScripts([...scripts, script])`. -/
def addScript (scripts : List Script) (script : Script) : List Script :=
  scripts ++ [script]

/-- `updateScript` from `ScriptsContext.tsx` lines 50-52:
`setScripts(scripts.map(script => script.id === updatedScript.id ? updatedScript : script))`. -/
def updateScript (scripts : List Script) (updatedScript : Script) : List Script :=
  scripts.map fun script => if script.id = updatedScript.id then updatedScript else script

/-- `JSON.stringify` restricted to booleans, as used by `toggleDrawer` in
`src/unnamed/part_008` line 26. -/
def stringifyBool (b : Bool) : String :=
  if b then "true" else "false"

/-- `JSON.parse` restricted to the boolean JSON literals; any other text is a
parse failure (`none`). -/
def parseBoolJson (s : String) : Option Bool :=
  if s = "true" then some true
  else if s = "false" then some false
  else none

/-- `toggleDrawer(open)` from `src/unnamed/part_008` lines 24-27: sets the
`drawerOpen` state to `open` and stores `JSON.stringify(open)` under the
localStorage key `drawerOpen`.  The localStorage slot for that key is the
`Option String`; the result is (new drawerOpen state, new stored value). -/
def toggleDrawer (b : Bool) (_saved : Option String) : Bool × Option String :=
  (b, some (stringifyBool b))

/-- The `useState` initializer of `DrawerProvider` (`src/unnamed/part_008`
lines 19-22): reads `localStorage.getItem('drawerOpen')`; a missing value or
an empty (JS-falsy) string yields `false`, otherwise the stored JSON is
parsed.  `none` in the result marks a `JSON.parse` exception on a non-boolean
stored value. -/
def drawerInit (saved : Option String) : Option Bool :=
  match saved with
  | none => some false
  | some s => if s = "" then some false else parseBoolJson s

end Web

namespace Lefi

/-- Modelled from the spec: the script document's `execution_policy` record,
`{partial_fulfillment: bool, cancel_unfulfilled: bool}` (spec section 6;
`USECASES.md` lines 22-25). -/
structure ExecutionPolicy where
  partial_fulfillment : Bool
  cancel_unfulfilled : Bool
deriving DecidableEq, Repr

/-- Modelled from the spec: the script document's `job` record
`{trigger, work, created_at, status, start_date, end_date}` (spec section 6;
`USECASES.md` lines 9-16).  The document carries these as strings. -/
structure JobRecord where
  trigger : String
  work : String
  created_at : String
  status : String
  start_date : String
  end_date : String
deriving DecidableEq, Repr

/-- Modelled from the spec: one `{key, value}` macro pair of the script
document (spec section 6; `USECASES.md` lines 27-44). -/
structure MacroPair where
  key : String
  value : String
deriving DecidableEq, Repr

/-- Modelled from the spec: one entry of the document's `script` array,
`{job, execution_policy, macros, expression}` (spec section 6). -/
structure ScriptEntry where
  job : JobRecord
  execution_policy : ExecutionPolicy
  macros : List MacroPair
  expression : String
deriving DecidableEq, Repr

/-- Modelled from the spec: the script document consumed as input,
`{id, name, description, script}` (spec section 6; `USECASES.md` lines 5-8). -/
structure ScriptDocument where
  id : String
  name : String
  description : String
  script : List ScriptEntry
deriving DecidableEq, Repr

/-- Field names of the script document, in order (spec section 6). -/
def scriptDocumentFields : List String :=
  ["id", "name", "description", "script"]

/-- Field names of one entry of the document's `script` array (spec section 6). -/
def scriptEntryFields : List String :=
  ["job", "execution_policy", "macros", "expression"]

/-- Field names of the document's `job` record (spec section 6). -/
def jobFields : List String :=
  ["trigger", "work", "created_at", "status", "start_date", "end_date"]

/-- Field names of the document's `execution_policy` record (spec section 6). -/
def executionPolicyFields : List String :=
  ["partial_fulfillment", "cancel_unfulfilled"]

/-! ### Decimal arithmetic

Modelled from the spec (section 4.4, "Numeric semantics"): all arithmetic is
performed in decimal at a fixed, documented precision.  A numeric value is an
integer mantissa at 4 decimal places; `scaleUnit` is the mantissa of `1`. -/

/-- Modelled from the spec: the fixed decimal precision is 4 places, so a
number `x` is stored as the integer mantissa `x * 10^4`. -/
def scaleUnit : Int := 10000

/-- Round a double-scale product mantissa down to the working scale
(used when crediting sale proceeds, rounding in the account's favour). -/
def floorScale (x : Int) : Int := x / scaleUnit

/-- Round a double-scale product mantissa up to the working scale
(used when charging a purchase cost, rounding in the account's favour). -/
def ceilScale (x : Int) : Int := (x + scaleUnit - 1) / scaleUnit

/-! ### Accounts and transaction methods

Modelled from the spec (sections 4.4 "Transaction method failure policy"
and 6 "Built-in method surface"): `Buy`/`Sell`/`TransferAmount` first check
precondition sufficiency (funds for Buy/Transfer-out, held units for Sell);
if insufficient and `partial_fulfillment` is true they execute the maximal
satisfiable quantity and record a partial outcome, otherwise they fail
entirely with `InsufficientFundsError`/`InsufficientSharesError`. -/

/-- Modelled from the spec: the account state owned by the external Account
capability — cash balance per account id and held units per
(account id, symbol), both as scale-4 mantissas. -/
structure AccountState where
  cash : String → Int
  units : String → String → Int

/-- Modelled from the spec (section 7): the recoverable transaction errors. -/
inductive TxError
  | insufficientFunds
  | insufficientShares
deriving DecidableEq, Repr

/-- Modelled from the spec: the outcome of one transaction method call —
fully executed, partially executed at the stated quantity, or failed. -/
inductive TxOutcome
  | full (qty : Int)
  | partialFill (qty : Int)
  | failed (e : TxError)
deriving DecidableEq, Repr

/-- Apply a buy of `qty` units of `sym` at `price` to account `acctId`:
charge `ceilScale (qty * price)` cash and credit `qty` units. -/
def buyApply (price : Int) (sym acctId : String) (qty : Int) (st : AccountState) :
    AccountState where
  cash := fun a => st.cash a - (if a = acctId then ceilScale (qty * price) else 0)
  units := fun a s => st.units a s + (if a = acctId ∧ s = sym then qty else 0)

/-- Modelled from the spec: the `Buy(symbol, account_id, units)` transaction.
Sufficiency of funds is the exact decimal comparison
`qty * price ≤ balance * scaleUnit` (both sides double-scale mantissas).
Insufficient with `partial_fulfillment` buys the maximal affordable quantity
`(balance * scaleUnit) / price`; without it the call fails with
`InsufficientFundsError` and leaves the account unchanged. -/
def execBuy (pol : ExecutionPolicy) (price : Int) (sym acctId : String) (qty : Int)
    (st : AccountState) : TxOutcome × AccountState :=
  let bal := st.cash acctId
  if qty * price ≤ bal * scaleUnit then
    (.full qty, buyApply price sym acctId qty st)
  else if pol.partial_fulfillment then
    let mq := (bal * scaleUnit) / price
    (.partialFill mq, buyApply price sym acctId mq st)
  else
    (.failed .insufficientFunds, st)

/-- Apply a sale of `qty` units of `sym` at `price` from account `acctId`:
remove `qty` units and credit `floorScale (qty * price)` cash. -/
def sellApply (price : Int) (sym acctId : String) (qty : Int) (st : AccountState) :
    AccountState where
  cash := fun a => st.cash a + (if a = acctId then floorScale (qty * price) else 0)
  units := fun a s => st.units a s - (if a = acctId ∧ s = sym then qty else 0)

/-- Modelled from the spec: the `Sell(symbol, account_id, units)` transaction.
Sufficiency is `qty ≤ held units`.  Insufficient with `partial_fulfillment`
sells exactly the held units (the maximal satisfiable quantity); without it
the call fails with `InsufficientSharesError` and leaves the account
unchanged. -/
def execSell (pol : ExecutionPolicy) (price : Int) (sym acctId : String) (qty : Int)
    (st : AccountState) : TxOutcome × AccountState :=
  let held := st.units acctId sym
  if qty ≤ held then
    (.full qty, sellApply price sym acctId qty st)
  else if pol.partial_fulfillment then
    (.partialFill held, sellApply price sym acctId held st)
  else
    (.failed .insufficientShares, st)

/-- Move `amount` cash from `senderId` to `receiverId`. -/
def transferApply (senderId receiverId : String) (amount : Int) (st : AccountState) :
    AccountState where
  cash := fun a =>
    st.cash a - (if a = senderId then amount else 0) +
      (if a = receiverId then amount else 0)
  units := st.units

/-- Modelled from the spec: the `TransferAmount(sender_id, receiver_id, amount)`
transaction.  Sufficiency is `amount ≤ sender balance`.  Insufficient with
`partial_fulfillment` transfers the whole remaining balance (the maximal
satisfiable amount); without it the call fails with `InsufficientFundsError`
and leaves both accounts unchanged. -/
def execTransfer (pol : ExecutionPolicy) (senderId receiverId : String) (amount : Int)
    (st : AccountState) : TxOutcome × AccountState :=
  let bal := st.cash senderId
  if amount ≤ bal then
    (.full amount, transferApply senderId receiverId amount st)
  else if pol.partial_fulfillment then
    (.partialFill bal, transferApply senderId receiverId bal st)
  else
    (.failed .insufficientFunds, st)

/-! ### Node model

Modelled from the spec (section 3 "Node" and `src/src/nodes/nodes.md`):
a closed tagged union of literals, variable references, binary/unary
operators, assignments, calls, and the control blocks.  Statement blocks are
encoded as right-nested `seq` chains ending in `skip`; the built-in methods
have at most three arguments, so calls come at fixed arities 1-3. -/

/-- Modelled from the spec (section 4.2 grammar surface): the binary
arithmetic, comparison and logical operators. -/
inductive BinOp
  | add | sub | mul | div
  | lt | le | gt | ge | eq | ne
  | and | or
deriving DecidableEq, Repr

/-- Modelled from the spec: runtime values — fixed-precision decimal numbers
(scale-4 integer mantissas), booleans, strings, and the unit result of a
statement. -/
inductive Value
  | num (m : Int)
  | bool (b : Bool)
  | str (s : String)
  | unit
deriving DecidableEq, Repr

/-- Modelled from the spec (section 7 error taxonomy): the error kinds a run
can surface in its `RunResult`. -/
inductive ErrorKind
  | arithmeticError
  | typeError
  | insufficientFunds
  | insufficientShares
  | approvalDenied
  | providerError
  | unknownMethod (m : String)
  | unboundVariable (n : String)
  | unresolvedReference (n : String) (pos : Nat)
  | duplicateDefinition (n : String)
deriving DecidableEq, Repr

/-- Modelled from the spec: the expression/statement tree.  `var` carries the
source position the Parser attached (used by Indexer errors); `ifThen` also
stands for the `decide` keyword (spec: "equivalent in effect to if/then");
`pays` routes the following numeric value through the external discounting
transform. -/
inductive Node
  | num (m : Int)
  | boolLit (b : Bool)
  | strLit (s : String)
  | var (name : String) (pos : Nat)
  | binop (op : BinOp) (l r : Node)
  | neg (e : Node)
  | assign (name : String) (rhs : Node)
  | seq (a b : Node)
  | skip
  | ifThen (cond : Node) (body : Node)
  | authorize (body : Node)
  | finalize (body : Node)
  | pays (e : Node)
  | call1 (m : String) (a : Node)
  | call2 (m : String) (a b : Node)
  | call3 (m : String) (a b c : Node)
deriving DecidableEq, Repr

/-! ### Evaluator

Modelled from the spec (section 4.4): one full tree walk per triggering
event, executing statements in structural order, dispatching built-in
methods, and enforcing the control-keyword semantics.  The walk threads an
explicit state and returns it together with the statement's result; an error
aborts the remaining statements and propagates to the `RunResult`. -/

/-- Modelled from the spec: one entry of the `RunResult`'s ordered
side-effect sequence — a method invocation with its outcome. -/
inductive Effect
  | buy (sym acctId : String) (requested : Int) (outcome : TxOutcome)
  | sell (sym acctId : String) (requested : Int) (outcome : TxOutcome)
  | transfer (senderId receiverId : String) (requested : Int) (outcome : TxOutcome)
  | notify (msg : String)
  | print (msg : String)
deriving DecidableEq, Repr

/-- Modelled from the spec: the capability handles one Evaluator pass is
given — the execution policy, the market-data price per symbol, the PnL per
(account, symbol), the approval decision known to this pass (`none` while
the decision is still pending), and the external discounting transform used
by `pays`. -/
structure Ctx where
  policy : ExecutionPolicy
  price : String → Int
  pnl : String → String → Int
  approval : Option Bool
  discount : Int → Int

/-- Modelled from the spec: the per-run mutable `ExecutionContext` — variable
bindings, the account state as seen through the Account capability, the
accumulated side effects, the post-order trace of evaluated expression
nodes, and the authorization-pending / finalized flags the `RunResult`
reports. -/
structure St where
  env : List (String × Value)
  acct : AccountState
  effects : List Effect
  trace : List Node
  pending : Bool
  finalized : Bool

/-- Look up the latest binding of `n`. -/
def lookupEnv (env : List (String × Value)) (n : String) : Option Value :=
  (env.find? fun p => p.1 = n).map fun p => p.2

/-- Record that the evaluation of expression node `n` just completed. -/
def pushTrace (n : Node) (st : St) : St :=
  { st with trace := st.trace ++ [n] }

/-- Modelled from the spec: appending one side effect to the run's ordered
sequence. -/
def pushEffect (e : Effect) (st : St) : St :=
  { st with effects := st.effects ++ [e] }

/-- Modelled from the spec (section 4.4 "Numeric semantics"): apply one
binary operator to two already-evaluated values.  Arithmetic is exact on the
scale-4 decimal mantissas (`mul`/`div` rescale with floor rounding);
comparisons are exact on that representation; division by zero fails with
`ArithmeticError`; operand type mismatches fail with a type error. -/
def applyBin : BinOp → Value → Value → Except ErrorKind Value
  | .add, .num a, .num b => .ok (.num (a + b))
  | .sub, .num a, .num b => .ok (.num (a - b))
  | .mul, .num a, .num b => .ok (.num (floorScale (a * b)))
  | .div, .num a, .num b =>
      if b = 0 then .error .arithmeticError else .ok (.num ((a * scaleUnit) / b))
  | .lt, .num a, .num b => .ok (.bool (a < b))
  | .le, .num a, .num b => .ok (.bool (a ≤ b))
  | .gt, .num a, .num b => .ok (.bool (b < a))
  | .ge, .num a, .num b => .ok (.bool (b ≤ a))
  | .eq, .num a, .num b => .ok (.bool (a = b))
  | .ne, .num a, .num b => .ok (.bool (a ≠ b))
  | .eq, .bool a, .bool b => .ok (.bool (a = b))
  | .ne, .bool a, .bool b => .ok (.bool (a ≠ b))
  | .eq, .str a, .str b => .ok (.bool (a = b))
  | .ne, .str a, .str b => .ok (.bool (a ≠ b))
  | .and, .bool a, .bool b => .ok (.bool (a && b))
  | .or, .bool a, .bool b => .ok (.bool (a || b))
  | _, _, _ => .error .typeError

/-- Modelled from the spec (section 6 "Built-in method surface"): dispatch a
built-in method over its already-evaluated arguments.  Information-retrieval
methods read the market/account capabilities; `Buy`/`Sell`/`TransferAmount`
run the execution-policy arbitration and append the invocation with its
outcome to the side-effect sequence (a fully failed transaction surfaces its
error); `Notify`/`Print` append their message. -/
def dispatchCall (ctx : Ctx) (m : String) (args : List Value) (st : St) :
    St × Except ErrorKind Value :=
  match m, args with
  | "Spot", [.str sym] => (st, .ok (.num (ctx.price sym)))
  | "Spot", [.str sym, .str _] => (st, .ok (.num (ctx.price sym)))
  | "StockUnits", [.str acctId, .str sym] => (st, .ok (.num (st.acct.units acctId sym)))
  | "PnL", [.str acctId, .str sym] => (st, .ok (.num (ctx.pnl acctId sym)))
  | "AccountBalance", [.str acctId] => (st, .ok (.num (st.acct.cash acctId)))
  | "Buy", [.str sym, .str acctId, .num q] =>
      let r := execBuy ctx.policy (ctx.price sym) sym acctId q st.acct
      let st' := pushEffect (.buy sym acctId q r.1) { st with acct := r.2 }
      match r.1 with
      | .failed .insufficientFunds => (st', .error .insufficientFunds)
      | .failed .insufficientShares => (st', .error .insufficientShares)
      | _ => (st', .ok (.bool true))
  | "Sell", [.str sym, .str acctId, .num q] =>
      let r := execSell ctx.policy (ctx.price sym) sym acctId q st.acct
      let st' := pushEffect (.sell sym acctId q r.1) { st with acct := r.2 }
      match r.1 with
      | .failed .insufficientFunds => (st', .error .insufficientFunds)
      | .failed .insufficientShares => (st', .error .insufficientShares)
      | _ => (st', .ok (.bool true))
  | "TransferAmount", [.str senderId, .str receiverId, .num a] =>
      let r := execTransfer ctx.policy senderId receiverId a st.acct
      let st' := pushEffect (.transfer senderId receiverId a r.1) { st with acct := r.2 }
      match r.1 with
      | .failed .insufficientFunds => (st', .error .insufficientFunds)
      | .failed .insufficientShares => (st', .error .insufficientShares)
      | _ => (st', .ok (.bool true))
  | "Transfer", [.str senderId, .str receiverId, .num a] =>
      let r := execTransfer ctx.policy senderId receiverId a st.acct
      let st' := pushEffect (.transfer senderId receiverId a r.1) { st with acct := r.2 }
      match r.1 with
      | .failed .insufficientFunds => (st', .error .insufficientFunds)
      | .failed .insufficientShares => (st', .error .insufficientShares)
      | _ => (st', .ok (.bool true))
  | "Notify", [.str msg] => (pushEffect (.notify msg) st, .ok (.bool true))
  | "Print", [.str msg] => (pushEffect (.print msg) st, .ok .unit)
  | _, _ => (st, .error (.unknownMethod m))

/-- Modelled from the spec (section 4.4): the Evaluator's tree walk.
Statements run in sequence, operands left-to-right before their operator,
leaves before their parents (each completed expression node is appended to
the trace).  `authorize` consults the approval decision before its body:
pending suspends the run (body untouched), denial skips the body with
`ApprovalDenied`, approval executes the body normally.  `finalize` flips the
finalized flag when its body completes without error.  An error aborts the
remaining statements of the enclosing constructs and propagates. -/
def evalNode (ctx : Ctx) : Node → St → St × Except ErrorKind Value
  | .num m, st => (pushTrace (.num m) st, .ok (.num m))
  | .boolLit b, st => (pushTrace (.boolLit b) st, .ok (.bool b))
  | .strLit s, st => (pushTrace (.strLit s) st, .ok (.str s))
  | .var n p, st =>
      match lookupEnv st.env n with
      | some v => (pushTrace (.var n p) st, .ok v)
      | none => (st, .error (.unboundVariable n))
  | .binop op l r, st =>
      match evalNode ctx l st with
      | (st₁, .error e) => (st₁, .error e)
      | (st₁, .ok v₁) =>
        match evalNode ctx r st₁ with
        | (st₂, .error e) => (st₂, .error e)
        | (st₂, .ok v₂) =>
          match applyBin op v₁ v₂ with
          | .error e => (st₂, .error e)
          | .ok v => (pushTrace (.binop op l r) st₂, .ok v)
  | .neg e, st =>
      match evalNode ctx e st with
      | (st₁, .error err) => (st₁, .error err)
      | (st₁, .ok (.num a)) => (pushTrace (.neg e) st₁, .ok (.num (-a)))
      | (st₁, .ok _) => (st₁, .error .typeError)
  | .assign n rhs, st =>
      match evalNode ctx rhs st with
      | (st₁, .error e) => (st₁, .error e)
      | (st₁, .ok v) =>
          let st₂ := pushTrace (.assign n rhs) st₁
          ({ st₂ with env := (n, v) :: st₂.env }, .ok v)
  | .seq a b, st =>
      match evalNode ctx a st with
      | (st₁, .error e) => (st₁, .error e)
      | (st₁, .ok _) =>
        match evalNode ctx b st₁ with
        | (st₂, .error e) => (st₂, .error e)
        | (st₂, .ok v) => (pushTrace (.seq a b) st₂, .ok v)
  | .skip, st => (pushTrace .skip st, .ok .unit)
  | .ifThen cond body, st =>
      match evalNode ctx cond st with
      | (st₁, .error e) => (st₁, .error e)
      | (st₁, .ok (.bool true)) => evalNode ctx body st₁
      | (st₁, .ok (.bool false)) => (st₁, .ok .unit)
      | (st₁, .ok _) => (st₁, .error .typeError)
  | .authorize body, st =>
      match ctx.approval with
      | none => ({ st with pending := true }, .ok .unit)
      | some false => (st, .error .approvalDenied)
      | some true => evalNode ctx body st
  | .finalize body, st =>
      match evalNode ctx body st with
      | (st₁, .error e) => (st₁, .error e)
      | (st₁, .ok v) => ({ st₁ with finalized := true }, .ok v)
  | .pays e, st =>
      match evalNode ctx e st with
      | (st₁, .error err) => (st₁, .error err)
      | (st₁, .ok (.num a)) => (pushTrace (.pays e) st₁, .ok (.num (ctx.discount a)))
      | (st₁, .ok _) => (st₁, .error .typeError)
  | .call1 m a, st =>
      match evalNode ctx a st with
      | (st₁, .error e) => (st₁, .error e)
      | (st₁, .ok v₁) => dispatchCall ctx m [v₁] st₁
  | .call2 m a b, st =>
      match evalNode ctx a st with
      | (st₁, .error e) => (st₁, .error e)
      | (st₁, .ok v₁) =>
        match evalNode ctx b st₁ with
        | (st₂, .error e) => (st₂, .error e)
        | (st₂, .ok v₂) => dispatchCall ctx m [v₁, v₂] st₂
  | .call3 m a b c, st =>
      match evalNode ctx a st with
      | (st₁, .error e) => (st₁, .error e)
      | (st₁, .ok v₁) =>
        match evalNode ctx b st₁ with
        | (st₂, .error e) => (st₂, .error e)
        | (st₂, .ok v₂) =>
          match evalNode ctx c st₂ with
          | (st₃, .error e) => (st₃, .error e)
          | (st₃, .ok v₃) => dispatchCall ctx m [v₁, v₂, v₃] st₃

/-! ### RunResult and the Job state machine -/

/-- Modelled from the spec (section 3): the outcome of one Evaluator pass,
`{finalized, authorization_pending, error, side_effects}`, consumed by the
Job state machine. -/
structure RunResult where
  finalized : Bool
  authorization_pending : Bool
  error : Option ErrorKind
  side_effects : List Effect
deriving DecidableEq, Repr

/-- Package the final state and result of one Evaluator pass as its
`RunResult`. -/
def mkRunResult (st : St) (r : Except ErrorKind Value) : RunResult where
  finalized := st.finalized
  authorization_pending := st.pending
  error := match r with | .ok _ => none | .error e => some e
  side_effects := st.effects

/-- Modelled from the spec: run one Evaluator pass over the root node from
state `st` and report its `RunResult`. -/
def runPass (ctx : Ctx) (root : Node) (st : St) : RunResult :=
  match evalNode ctx root st with
  | (st', r) => mkRunResult st' r

/-- Modelled from the spec (section 4.5): the Job states.  `failed` carries
whether its cause is retryable (a transient provider error is, the fatal
script errors are not). -/
inductive JobStatus
  | active
  | authorizingPending
  | authorized
  | denied
  | partiallyFulfilled
  | finalized
  | cancelled
  | failed (retryable : Bool)
deriving DecidableEq, Repr

/-- Modelled from the spec (section 4.5): `Finalized`, `Cancelled` and
`Failed` with a non-retryable cause are terminal. -/
def isTerminal : JobStatus → Bool
  | .finalized => true
  | .cancelled => true
  | .failed retryable => !retryable
  | _ => false

/-- Modelled from the spec: the Evaluator reads the Job status only to
decide whether a run should occur at all; terminal states stop further
triggering. -/
def shouldTrigger (s : JobStatus) : Bool :=
  !(isTerminal s)

/-- Whether a transaction in the side-effect sequence ended partially
fulfilled. -/
def hasPartialOutcome (rr : RunResult) : Bool :=
  rr.side_effects.any fun e =>
    match e with
    | .buy _ _ _ (.partialFill _) => true
    | .sell _ _ _ (.partialFill _) => true
    | .transfer _ _ _ (.partialFill _) => true
    | _ => false

/-- Whether an error kind is retryable on a later trigger (spec section 7:
only the transient `ProviderError` is; the dispatcher retries it). -/
def errRetryable : ErrorKind → Bool
  | .providerError => true
  | _ => false

/-- Modelled from the spec (section 4.5): the transition the Job state
machine applies to one `RunResult`.  A finalized pass reaches `Finalized`;
a suspended pass waits in `AuthorizingPending`; a denial reaches `Denied`;
any other error fails (retryably only for provider errors); an error-free
pass with an unfulfilled partial remainder is cancelled when
`cancel_unfulfilled` demands it, else marked `PartiallyFulfilled`; an
error-free full pass of a still-armed job stays `Active`. -/
def stepJob (pol : ExecutionPolicy) (s : JobStatus) (rr : RunResult) : JobStatus :=
  if rr.finalized then .finalized
  else if rr.authorization_pending then .authorizingPending
  else
    match rr.error with
    | some .approvalDenied => .denied
    | some e => .failed (errRetryable e)
    | none =>
        if hasPartialOutcome rr then
          if pol.cancel_unfulfilled then .cancelled else .partiallyFulfilled
        else s

/-- Modelled from the spec: the external dispatcher's trigger loop.  Each
event whose arrival finds the job non-terminal runs one Evaluator pass
(abstracted as the event's `JobStatus → RunResult` function) and applies the
state machine; terminal jobs are skipped.  Returns the final status and the
number of passes run. -/
def runEvents (pol : ExecutionPolicy) :
    JobStatus → List (JobStatus → RunResult) → JobStatus × Nat
  | s, [] => (s, 0)
  | s, ev :: evs =>
      if shouldTrigger s then
        let r := runEvents pol (stepJob pol s (ev s)) evs
        (r.1, r.2 + 1)
      else
        runEvents pol s evs

/-! ### Indexer

Modelled from the spec (section 4.3): a single read-only pass over every
macro expression tree and the root node, registering macro keys and
assignment targets and checking that every `VariableRef` has a prior or
current-pass definition.  Evaluation never proceeds when it reports an
error. -/

/-- Modelled from the spec: the Indexer's error kinds. -/
inductive IndexError
  | unresolvedRef (name : String) (pos : Nat)
  | duplicateDef (name : String)
deriving DecidableEq, Repr

/-- Modelled from the spec: the Indexer's walk over one tree, threading the
set of defined names.  A `VariableRef` must already be defined; an
`Assignment` registers its target after its right-hand side is checked. -/
def indexNode : Node → List String → Except IndexError (List String)
  | .num _, ds => .ok ds
  | .boolLit _, ds => .ok ds
  | .strLit _, ds => .ok ds
  | .skip, ds => .ok ds
  | .var n p, ds => if n ∈ ds then .ok ds else .error (.unresolvedRef n p)
  | .binop _ l r, ds =>
      match indexNode l ds with
      | .error e => .error e
      | .ok ds₁ => indexNode r ds₁
  | .neg e, ds => indexNode e ds
  | .pays e, ds => indexNode e ds
  | .assign n rhs, ds =>
      match indexNode rhs ds with
      | .error e => .error e
      | .ok ds₁ => .ok (if n ∈ ds₁ then ds₁ else n :: ds₁)
  | .seq a b, ds =>
      match indexNode a ds with
      | .error e => .error e
      | .ok ds₁ => indexNode b ds₁
  | .ifThen c b, ds =>
      match indexNode c ds with
      | .error e => .error e
      | .ok ds₁ => indexNode b ds₁
  | .authorize b, ds => indexNode b ds
  | .finalize b, ds => indexNode b ds
  | .call1 _ a, ds => indexNode a ds
  | .call2 _ a b, ds =>
      match indexNode a ds with
      | .error e => .error e
      | .ok ds₁ => indexNode b ds₁
  | .call3 _ a b c, ds =>
      match indexNode a ds with
      | .error e => .error e
      | .ok ds₁ =>
        match indexNode b ds₁ with
        | .error e => .error e
        | .ok ds₂ => indexNode c ds₂

/-- Modelled from the spec: the Indexer over the macro-definition list.  Each
macro's value expression is checked against the names defined so far, then
its key is registered; a key that is already defined is a
`DuplicateDefinitionError`. -/
def indexMacros : List (String × Node) → List String → Except IndexError (List String)
  | [], ds => .ok ds
  | (k, v) :: ms, ds =>
      match indexNode v ds with
      | .error e => .error e
      | .ok ds₁ =>
          if k ∈ ds₁ then .error (.duplicateDef k)
          else indexMacros ms (k :: ds₁)

/-- Modelled from the spec: `Index(script)` — the macro list first, then the
root tree, producing the defined-name table or the first Indexer error. -/
def indexScript (macros : List (String × Node)) (root : Node) :
    Except IndexError (List String) :=
  match indexMacros macros [] with
  | .error e => .error e
  | .ok ds => indexNode root ds

/-- The claim's resolution condition, stated directly: the names a tree's
walk adds to the defined set (assignment targets, threaded left to right). -/
def defsOut : Node → List String → List String
  | .num _, ds => ds
  | .boolLit _, ds => ds
  | .strLit _, ds => ds
  | .skip, ds => ds
  | .var _ _, ds => ds
  | .binop _ l r, ds => defsOut r (defsOut l ds)
  | .neg e, ds => defsOut e ds
  | .pays e, ds => defsOut e ds
  | .assign n rhs, ds =>
      let ds₁ := defsOut rhs ds
      if n ∈ ds₁ then ds₁ else n :: ds₁
  | .seq a b, ds => defsOut b (defsOut a ds)
  | .ifThen c b, ds => defsOut b (defsOut c ds)
  | .authorize b, ds => defsOut b ds
  | .finalize b, ds => defsOut b ds
  | .call1 _ a, ds => defsOut a ds
  | .call2 _ a b, ds => defsOut b (defsOut a ds)
  | .call3 _ a b c, ds => defsOut c (defsOut b (defsOut a ds))

/-- The claim's resolution condition, stated directly: every `VariableRef`
in the tree has a prior macro or assignment defining it, definitions
threading left to right. -/
def refsOk : Node → List String → Bool
  | .num _, _ => true
  | .boolLit _, _ => true
  | .strLit _, _ => true
  | .skip, _ => true
  | .var n _, ds => n ∈ ds
  | .binop _ l r, ds => refsOk l ds && refsOk r (defsOut l ds)
  | .neg e, ds => refsOk e ds
  | .pays e, ds => refsOk e ds
  | .assign _ rhs, ds => refsOk rhs ds
  | .seq a b, ds => refsOk a ds && refsOk b (defsOut a ds)
  | .ifThen c b, ds => refsOk c ds && refsOk b (defsOut c ds)
  | .authorize b, ds => refsOk b ds
  | .finalize b, ds => refsOk b ds
  | .call1 _ a, ds => refsOk a ds
  | .call2 _ a b, ds => refsOk a ds && refsOk b (defsOut a ds)
  | .call3 _ a b c, ds =>
      refsOk a ds && (refsOk b (defsOut a ds) && refsOk c (defsOut b (defsOut a ds)))

/-- Whether a tree contains no `Assignment` (the spec's macro values are
"small constructor expressions", which never define names). -/
def noAssign : Node → Bool
  | .num _ => true
  | .boolLit _ => true
  | .strLit _ => true
  | .skip => true
  | .var _ _ => true
  | .binop _ l r => noAssign l && noAssign r
  | .neg e => noAssign e
  | .pays e => noAssign e
  | .assign _ _ => false
  | .seq a b => noAssign a && noAssign b
  | .ifThen c b => noAssign c && noAssign b
  | .authorize b => noAssign b
  | .finalize b => noAssign b
  | .call1 _ a => noAssign a
  | .call2 _ a b => noAssign a && noAssign b
  | .call3 _ a b c => noAssign a && (noAssign b && noAssign c)

/-- The claim's resolution condition over the macro list: each value resolves
against the names defined so far, keys registering left to right. -/
def refsOkMacros : List (String × Node) → List String → Bool
  | [], _ => true
  | (k, v) :: ms, ds => refsOk v ds && refsOkMacros ms (k :: defsOut v ds)

/-- The names defined after the macro list (mirror of `indexMacros`'s
success path). -/
def macrosDefs : List (String × Node) → List String → List String
  | [], ds => ds
  | (k, v) :: ms, ds => macrosDefs ms (k :: defsOut v ds)

/-- The claim's resolution condition for a whole script: every `VariableRef`
in every macro value and in the root tree has a prior macro or assignment
defining it. -/
def refsOkScript (macros : List (String × Node)) (root : Node) : Bool :=
  refsOkMacros macros [] && refsOk root (macrosDefs macros [])

/-! ### The engine's run pipeline -/

/-- Map an Indexer error to the error kind its `RunResult` surfaces. -/
def indexErrKind : IndexError → ErrorKind
  | .unresolvedRef n p => .unresolvedReference n p
  | .duplicateDef n => .duplicateDefinition n

/-- Modelled from the spec (section 3 "Macro"): bind each macro value, a
small constructor expression evaluated once at context setup, into the
environment. -/
def bindMacros (ctx : Ctx) : List (String × Node) → St → St × Except ErrorKind Value
  | [], st => (st, .ok .unit)
  | (k, v) :: ms, st =>
      match evalNode ctx v st with
      | (st₁, .error e) => (st₁, .error e)
      | (st₁, .ok val) => bindMacros ctx ms { st₁ with env := (k, val) :: st₁.env }

/-- Modelled from the spec: the engine's whole run for one triggering event —
index first, and only when the Indexer reports no error set up the context
(bind the macros) and evaluate.  An Indexer error is a `RunResult` with the
error and no side effects: evaluation never proceeds. -/
def runScript (ctx : Ctx) (macros : List (String × Node)) (root : Node) (st : St) :
    RunResult :=
  match indexScript macros root with
  | .error e =>
      { finalized := false, authorization_pending := false
        error := some (indexErrKind e), side_effects := [] }
  | .ok _ =>
      match bindMacros ctx macros st with
      | (st₁, .error e) => mkRunResult st₁ (.error e)
      | (st₁, .ok _) => runPass ctx root st₁

/-! ### Structural evaluation order -/

/-- The sub-language of straight-line expression trees — literals, variable
references, operators, `pays`, assignments and sequencing, with no
control-flow construct and no external call. -/
def straightLine : Node → Bool
  | .num _ => true
  | .boolLit _ => true
  | .strLit _ => true
  | .var _ _ => true
  | .skip => true
  | .binop _ l r => straightLine l && straightLine r
  | .neg e => straightLine e
  | .pays e => straightLine e
  | .assign _ rhs => straightLine rhs
  | .seq a b => straightLine a && straightLine b
  | _ => false

/-- The tree's structural evaluation order, stated directly from the spec's
words: statements in sequence, operands left-to-right before their operator,
leaves before their parents. -/
def postOrder : Node → List Node
  | .num m => [.num m]
  | .boolLit b => [.boolLit b]
  | .strLit s => [.strLit s]
  | .var n p => [.var n p]
  | .skip => [.skip]
  | .binop op l r => postOrder l ++ postOrder r ++ [.binop op l r]
  | .neg e => postOrder e ++ [.neg e]
  | .pays e => postOrder e ++ [.pays e]
  | .assign n rhs => postOrder rhs ++ [.assign n rhs]
  | .seq a b => postOrder a ++ postOrder b ++ [.seq a b]
  | n => [n]

/-! ### Parser

Modelled from the spec (section 4.2): script text to one root node.
Grammar surface: arithmetic, comparison, assignment `=`, `if/then/end`,
bare blocks `authorize { ... }` and `finalize { ... }`, and call syntax
`Name(arg, ...)`.  The tokenizer tracks 1-based line/column; a failure is a
`SyntaxError` carrying the offending position and a human-readable
expectation, and no tree is returned alongside it. -/

/-- Modelled from the spec: a parse failure — the offending line/column and
what was expected there. -/
structure SyntaxError where
  line : Nat
  col : Nat
  expected : String
deriving DecidableEq, Repr

/-- The token kinds of the grammar surface. -/
inductive TokKind
  | numTok (m : Int)
  | identTok (s : String)
  | strTok (s : String)
  | plusTok | minusTok | starTok | slashTok
  | lparenTok | rparenTok | lbraceTok | rbraceTok
  | assignTok | eqTok | ltTok | gtTok
  | semiTok | commaTok
deriving DecidableEq, Repr

/-- A token with the 1-based line/column where it starts. -/
structure Tok where
  kind : TokKind
  line : Nat
  col : Nat
deriving DecidableEq, Repr

/-- Decimal digit test. -/
def isDigitCh (c : Char) : Bool := '0' ≤ c && c ≤ '9'

/-- Identifier character test (letters, digits, underscore). -/
def isIdentCh (c : Char) : Bool :=
  ('a' ≤ c && c ≤ 'z') || ('A' ≤ c && c ≤ 'Z') || c = '_' || isDigitCh c

/-- Identifier head character test (letters, underscore). -/
def isIdentHeadCh (c : Char) : Bool :=
  ('a' ≤ c && c ≤ 'z') || ('A' ≤ c && c ≤ 'Z') || c = '_'

/-- Split off the longest prefix satisfying `p`. -/
def spanP (p : Char → Bool) : List Char → List Char × List Char
  | [] => ([], [])
  | c :: cs =>
      if p c then
        let r := spanP p cs
        (c :: r.1, r.2)
      else
        ([], c :: cs)

/-- The natural number a digit run denotes. -/
def natOfDigits (ds : List Char) : Nat :=
  ds.foldl (fun acc c => acc * 10 + (c.toNat - '0'.toNat)) 0

/-- Encode a line/column pair as the single position a `VariableRef` node
carries. -/
def encodePos (line col : Nat) : Nat :=
  line * 1000000 + col

/-- The single-character symbol tokens. -/
def symToken (c : Char) : Option TokKind :=
  if c = '+' then some TokKind.plusTok
  else if c = '-' then some TokKind.minusTok
  else if c = '*' then some TokKind.starTok
  else if c = '/' then some TokKind.slashTok
  else if c = '(' then some TokKind.lparenTok
  else if c = ')' then some TokKind.rparenTok
  else if c = '\x7b' then some TokKind.lbraceTok
  else if c = '\x7d' then some TokKind.rbraceTok
  else if c = '<' then some TokKind.ltTok
  else if c = '>' then some TokKind.gtTok
  else if c = ';' then some TokKind.semiTok
  else if c = ',' then some TokKind.commaTok
  else none

/-- Modelled from the spec: the tokenizer.  Scans left to right tracking
line and column; an unrecognized character or an unterminated string is a
`SyntaxError` at its position.  `fuel` dominates the input length. -/
def tokenize (fuel : Nat) (cs : List Char) (line col : Nat) :
    Except SyntaxError (List Tok) :=
  match fuel with
  | 0 => .error ⟨line, col, "a shorter script"⟩
  | fuel + 1 =>
    match cs with
    | [] => .ok []
    | c :: rest =>
      if c = '\n' then tokenize fuel rest (line + 1) 1
      else if c = ' ' || c = '\t' || c = '\r' then tokenize fuel rest line (col + 1)
      else if isDigitCh c then
        let r := spanP isDigitCh rest
        let digits := c :: r.1
        match tokenize fuel r.2 line (col + digits.length) with
        | .error e => .error e
        | .ok ts => .ok (⟨.numTok ((natOfDigits digits : Int) * scaleUnit), line, col⟩ :: ts)
      else if isIdentHeadCh c then
        let r := spanP isIdentCh rest
        let name := String.mk (c :: r.1)
        match tokenize fuel r.2 line (col + name.length) with
        | .error e => .error e
        | .ok ts => .ok (⟨.identTok name, line, col⟩ :: ts)
      else if c = '"' then
        let r := spanP (fun d => d != '"') rest
        match r.2 with
        | [] => .error ⟨line, col, "a closing double quote"⟩
        | _ :: rest' =>
          match tokenize fuel rest' line (col + r.1.length + 2) with
          | .error e => .error e
          | .ok ts => .ok (⟨.strTok (String.mk r.1), line, col⟩ :: ts)
      else if c = '=' then
        match rest with
        | '=' :: rest' =>
          match tokenize fuel rest' line (col + 2) with
          | .error e => .error e
          | .ok ts => .ok (⟨.eqTok, line, col⟩ :: ts)
        | _ =>
          match tokenize fuel rest line (col + 1) with
          | .error e => .error e
          | .ok ts => .ok (⟨.assignTok, line, col⟩ :: ts)
      else
        match symToken c with
        | some k =>
          match tokenize fuel rest line (col + 1) with
          | .error e => .error e
          | .ok ts => .ok (⟨k, line, col⟩ :: ts)
        | none => .error ⟨line, col, "a valid token"⟩

/-- The error reported when a construct needs a token but the script ended. -/
def eofErr (expected : String) : SyntaxError :=
  ⟨0, 0, expected ++ " before the end of the script"⟩

/-- The error reported at an unexpected token. -/
def tokErr (t : Tok) (expected : String) : SyntaxError :=
  ⟨t.line, t.col, expected⟩

mutual

/-- Modelled from the spec: primary expressions — literals, variables,
calls `Name(arg, ...)` of arity one to three, and parenthesized
expressions. -/
def parsePrimary : Nat → List Tok → Except SyntaxError (Node × List Tok)
  | 0, _ => .error ⟨0, 0, "a less deeply nested script"⟩
  | _ + 1, [] => .error (eofErr "an expression")
  | fuel + 1, t :: ts =>
    match t.kind with
    | .numTok m => .ok (.num m, ts)
    | .strTok s => .ok (.strLit s, ts)
    | .identTok "true" => .ok (.boolLit true, ts)
    | .identTok "false" => .ok (.boolLit false, ts)
    | .identTok name =>
      match ts with
      | ⟨.lparenTok, _, _⟩ :: ts₁ =>
        (match parseExpr fuel ts₁ with
         | .error e => .error e
         | .ok (a, ts₂) =>
           match ts₂ with
           | ⟨.rparenTok, _, _⟩ :: ts₃ => .ok (.call1 name a, ts₃)
           | ⟨.commaTok, _, _⟩ :: ts₃ =>
             (match parseExpr fuel ts₃ with
              | .error e => .error e
              | .ok (b, ts₄) =>
                match ts₄ with
                | ⟨.rparenTok, _, _⟩ :: ts₅ => .ok (.call2 name a b, ts₅)
                | ⟨.commaTok, _, _⟩ :: ts₅ =>
                  (match parseExpr fuel ts₅ with
                   | .error e => .error e
                   | .ok (c, ts₆) =>
                     match ts₆ with
                     | ⟨.rparenTok, _, _⟩ :: ts₇ => .ok (.call3 name a b c, ts₇)
                     | u :: _ => .error (tokErr u "a closing parenthesis")
                     | [] => .error (eofErr "a closing parenthesis"))
                | u :: _ => .error (tokErr u "a closing parenthesis or a comma")
                | [] => .error (eofErr "a closing parenthesis or a comma"))
           | u :: _ => .error (tokErr u "a closing parenthesis or a comma")
           | [] => .error (eofErr "a closing parenthesis or a comma"))
      | _ => .ok (.var name (encodePos t.line t.col), ts)
    | .lparenTok =>
      (match parseExpr fuel ts with
       | .error e => .error e
       | .ok (a, ts₁) =>
         match ts₁ with
         | ⟨.rparenTok, _, _⟩ :: ts₂ => .ok (a, ts₂)
         | u :: _ => .error (tokErr u "a closing parenthesis")
         | [] => .error (eofErr "a closing parenthesis"))
    | _ => .error (tokErr t "a literal, a variable, or a parenthesized expression")

/-- Unary minus over primaries. -/
def parseUnary : Nat → List Tok → Except SyntaxError (Node × List Tok)
  | 0, _ => .error ⟨0, 0, "a less deeply nested script"⟩
  | fuel + 1, toks =>
    match toks with
    | ⟨.minusTok, _, _⟩ :: ts =>
      (match parseUnary fuel ts with
       | .error e => .error e
       | .ok (a, ts₁) => .ok (.neg a, ts₁))
    | _ => parsePrimary fuel toks

/-- Left-associative `*` and `/` chains continuing `acc`. -/
def parseMulRest (fuel : Nat) (acc : Node) (toks : List Tok) :
    Except SyntaxError (Node × List Tok) :=
  match fuel with
  | 0 => .error ⟨0, 0, "a less deeply nested script"⟩
  | fuel + 1 =>
    match toks with
    | ⟨.starTok, _, _⟩ :: ts =>
      (match parseUnary fuel ts with
       | .error e => .error e
       | .ok (b, ts₁) => parseMulRest fuel (.binop .mul acc b) ts₁)
    | ⟨.slashTok, _, _⟩ :: ts =>
      (match parseUnary fuel ts with
       | .error e => .error e
       | .ok (b, ts₁) => parseMulRest fuel (.binop .div acc b) ts₁)
    | _ => .ok (acc, toks)

/-- Multiplicative expressions. -/
def parseMul (fuel : Nat) (toks : List Tok) : Except SyntaxError (Node × List Tok) :=
  match fuel with
  | 0 => .error ⟨0, 0, "a less deeply nested script"⟩
  | fuel + 1 =>
    match parseUnary fuel toks with
    | .error e => .error e
    | .ok (a, ts) => parseMulRest fuel a ts

/-- Left-associative `+` and `-` chains continuing `acc`. -/
def parseAddRest (fuel : Nat) (acc : Node) (toks : List Tok) :
    Except SyntaxError (Node × List Tok) :=
  match fuel with
  | 0 => .error ⟨0, 0, "a less deeply nested script"⟩
  | fuel + 1 =>
    match toks with
    | ⟨.plusTok, _, _⟩ :: ts =>
      (match parseMul fuel ts with
       | .error e => .error e
       | .ok (b, ts₁) => parseAddRest fuel (.binop .add acc b) ts₁)
    | ⟨.minusTok, _, _⟩ :: ts =>
      (match parseMul fuel ts with
       | .error e => .error e
       | .ok (b, ts₁) => parseAddRest fuel (.binop .sub acc b) ts₁)
    | _ => .ok (acc, toks)

/-- Additive expressions. -/
def parseAdd (fuel : Nat) (toks : List Tok) : Except SyntaxError (Node × List Tok) :=
  match fuel with
  | 0 => .error ⟨0, 0, "a less deeply nested script"⟩
  | fuel + 1 =>
    match parseMul fuel toks with
    | .error e => .error e
    | .ok (a, ts) => parseAddRest fuel a ts

/-- Full expressions: an additive expression optionally compared (`<`, `>`,
`==`) with another. -/
def parseExpr (fuel : Nat) (toks : List Tok) : Except SyntaxError (Node × List Tok) :=
  match fuel with
  | 0 => .error ⟨0, 0, "a less deeply nested script"⟩
  | fuel + 1 =>
    match parseAdd fuel toks with
    | .error e => .error e
    | .ok (a, ts) =>
      match ts with
      | ⟨.ltTok, _, _⟩ :: ts₁ =>
        (match parseAdd fuel ts₁ with
         | .error e => .error e
         | .ok (b, ts₂) => .ok (.binop .lt a b, ts₂))
      | ⟨.gtTok, _, _⟩ :: ts₁ =>
        (match parseAdd fuel ts₁ with
         | .error e => .error e
         | .ok (b, ts₂) => .ok (.binop .gt a b, ts₂))
      | ⟨.eqTok, _, _⟩ :: ts₁ =>
        (match parseAdd fuel ts₁ with
         | .error e => .error e
         | .ok (b, ts₂) => .ok (.binop .eq a b, ts₂))
      | _ => .ok (a, ts)

/-- One statement: an assignment `name = expr;`, an `if expr then
statements end` conditional, an `authorize { statements }` or `finalize
{ statements }` block, or an expression statement `expr;`. -/
def parseStmt (fuel : Nat) (toks : List Tok) : Except SyntaxError (Node × List Tok) :=
  match fuel with
  | 0 => .error ⟨0, 0, "a less deeply nested script"⟩
  | fuel + 1 =>
    match toks with
    | (t@⟨.identTok "if", _, _⟩) :: ts =>
      (match parseExpr fuel ts with
       | .error e => .error e
       | .ok (cond, ts₁) =>
         match ts₁ with
         | ⟨.identTok "then", _, _⟩ :: ts₂ =>
           (match parseStmts fuel ts₂ with
            | .error e => .error e
            | .ok (body, ts₃) =>
              match ts₃ with
              | ⟨.identTok "end", _, _⟩ :: ts₄ => .ok (.ifThen cond body, ts₄)
              | u :: _ => .error (tokErr u "the keyword end")
              | [] => .error (eofErr "the keyword end"))
         | u :: _ => .error (tokErr u "the keyword then")
         | [] => .error (eofErr "the keyword then after the if condition"))
    | ⟨.identTok "authorize", _, _⟩ :: ts =>
      (match ts with
       | ⟨.lbraceTok, _, _⟩ :: ts₁ =>
         (match parseStmts fuel ts₁ with
          | .error e => .error e
          | .ok (body, ts₂) =>
            match ts₂ with
            | ⟨.rbraceTok, _, _⟩ :: ts₃ => .ok (.authorize body, ts₃)
            | u :: _ => .error (tokErr u "a closing brace")
            | [] => .error (eofErr "a closing brace"))
       | u :: _ => .error (tokErr u "an opening brace")
       | [] => .error (eofErr "an opening brace"))
    | ⟨.identTok "finalize", _, _⟩ :: ts =>
      (match ts with
       | ⟨.lbraceTok, _, _⟩ :: ts₁ =>
         (match parseStmts fuel ts₁ with
          | .error e => .error e
          | .ok (body, ts₂) =>
            match ts₂ with
            | ⟨.rbraceTok, _, _⟩ :: ts₃ => .ok (.finalize body, ts₃)
            | u :: _ => .error (tokErr u "a closing brace")
            | [] => .error (eofErr "a closing brace"))
       | u :: _ => .error (tokErr u "an opening brace")
       | [] => .error (eofErr "an opening brace"))
    | ⟨.identTok "pays", _, _⟩ :: ts =>
      (match parseExpr fuel ts with
       | .error e => .error e
       | .ok (a, ts₁) =>
         match ts₁ with
         | ⟨.semiTok, _, _⟩ :: ts₂ => .ok (.pays a, ts₂)
         | u :: _ => .error (tokErr u "a semicolon")
         | [] => .error (eofErr "a semicolon"))
    | ⟨.identTok name, _, _⟩ :: ⟨.assignTok, _, _⟩ :: ts =>
      (match parseExpr fuel ts with
       | .error e => .error e
       | .ok (rhs, ts₁) =>
         match ts₁ with
         | ⟨.semiTok, _, _⟩ :: ts₂ => .ok (.assign name rhs, ts₂)
         | u :: _ => .error (tokErr u "a semicolon")
         | [] => .error (eofErr "a semicolon"))
    | _ =>
      (match parseExpr fuel toks with
       | .error e => .error e
       | .ok (a, ts₁) =>
         match ts₁ with
         | ⟨.semiTok, _, _⟩ :: ts₂ => .ok (a, ts₂)
         | u :: _ => .error (tokErr u "a semicolon")
         | [] => .error (eofErr "a semicolon"))

/-- A statement sequence, stopping before a closing brace, the keyword
`end`, or the end of the script; encoded as a right-nested `seq` chain
ending in `skip`. -/
def parseStmts (fuel : Nat) (toks : List Tok) : Except SyntaxError (Node × List Tok) :=
  match fuel with
  | 0 => .error ⟨0, 0, "a less deeply nested script"⟩
  | fuel + 1 =>
    match toks with
    | [] => .ok (.skip, [])
    | ⟨.rbraceTok, l, c⟩ :: ts => .ok (.skip, ⟨.rbraceTok, l, c⟩ :: ts)
    | ⟨.identTok "end", l, c⟩ :: ts => .ok (.skip, ⟨.identTok "end", l, c⟩ :: ts)
    | _ =>
      match parseStmt fuel toks with
      | .error e => .error e
      | .ok (s, ts₁) =>
        match parseStmts fuel ts₁ with
        | .error e => .error e
        | .ok (rest, ts₂) => .ok (.seq s rest, ts₂)

end

/-- Modelled from the spec: the Parser's entry point — tokenize, parse the
statement sequence, and demand that the whole script was consumed.  Returns
one complete root node, or the first `SyntaxError`; never both. -/
def parseScript (src : String) : Except SyntaxError Node :=
  match tokenize (src.length + 1) src.toList 1 1 with
  | .error e => .error e
  | .ok toks =>
    match parseStmts (8 * (toks.length + 1)) toks with
    | .error e => .error e
    | .ok (root, []) => .ok root
    | .ok (_, u :: _) => .error (tokErr u "a statement")

/-! ### Concrete fixtures

Small concrete policies, accounts, contexts and trees used to instantiate
the theorems below at specific inputs. -/

/-- A policy forbidding partial fulfillment. -/
def polNoPart : ExecutionPolicy := ⟨false, false⟩

/-- A policy allowing partial fulfillment. -/
def polPart : ExecutionPolicy := ⟨true, false⟩

/-- An account store: account `A` holds 50 cash and 30 AAPL units. -/
def acctFix : AccountState where
  cash := fun a => if a = "A" then 500000 else 0
  units := fun a s => if a = "A" ∧ s = "AAPL" then 300000 else 0

/-- A fresh run state over `acctFix`. -/
def stFix : St :=
  { env := [], acct := acctFix, effects := [], trace := [], pending := false
    finalized := false }

/-- A capability context with AAPL at 150, the given approval decision, and
the identity discount. -/
def ctxFix (appr : Option Bool) : Ctx :=
  { policy := polPart, price := fun _ => 1500000, pnl := fun _ _ => 0
    approval := appr, discount := fun x => x }

/-- The `authorize` example's body: `Buy("AAPL", "A", 1)`. -/
def buyCallNode : Node := .call3 "Buy" (.strLit "AAPL") (.strLit "A") (.num 10000)

/-- The spec's exactness example `2 * (7 - 3) + 5` as a tree. -/
def arithTree : Node :=
  .binop .add (.binop .mul (.num 20000) (.binop .sub (.num 70000) (.num 30000)))
    (.num 50000)

/-- The documented expression-tree example `z = x + 2 * (y - 3)`. -/
def zTree : Node :=
  .assign "z"
    (.binop .add (.var "x" 0)
      (.binop .mul (.num 20000) (.binop .sub (.var "y" 1) (.num 30000))))

/-- A run state binding `x = 1` and `y = 5`. -/
def stXY : St := { stFix with env := [("x", .num 10000), ("y", .num 50000)] }

/-- A macro list defining `stock`. -/
def macrosFix : List (String × Node) := [("stock", .call1 "Spot" (.strLit "AAPL"))]

/-- A root tree whose every reference has a prior definition. -/
def rootResolved : Node := .assign "x" (.var "stock" 7)

/-- A root tree referencing the undeclared `nope` at position 42. -/
def rootUnresolved : Node := .seq (.assign "x" (.var "stock" 7)) (.var "nope" 42)

end Lefi

namespace Web

/-- A stored script with id `a`. -/
def sA : Script := { id := "a", referenceDate := 0, macros := [], events := none }

/-- A stored script with id `b`. -/
def sB : Script := { id := "b", referenceDate := 1, macros := [], events := none }

/-- An update carrying id `b` but new content. -/
def sB' : Script :=
  { id := "b", referenceDate := 2, macros := [⟨"m", "k", "v"⟩], events := none }

/-- An update whose id `c` matches no stored script. -/
def sC : Script := { id := "c", referenceDate := 3, macros := [], events := none }

end Web

/-! ## Theorems -/
/-! ## Theorems -/

/-- Charging at most `b * scaleUnit` (double scale) costs at most `b` at the
working scale, even after the ceiling rounding. -/
theorem ceilScale_le {x b : Int} (h : x ≤ b * Lefi.scaleUnit) :
    Lefi.ceilScale x ≤ b := by
  simp only [Lefi.ceilScale, Lefi.scaleUnit] at *
  have h1 : (x + 10000 - 1) / 10000 ≤ (9999 + 10000 * b) / 10000 :=
    Int.ediv_le_ediv (by norm_num) (by omega)
  have h2 : (9999 + 10000 * b) / 10000 = 9999 / 10000 + b :=
    Int.add_mul_ediv_left 9999 b (by norm_num)
  have h3 : (9999 : Int) / 10000 = 0 := by decide
  omega

/-- C1.  The script document consumed as engine input has the documented
shape `{id, name, description, script: [{job, execution_policy, macros,
expression}]}` with the stated `job` and `execution_policy` fields — but the
script record the web UI itself stores (`Script` in `ScriptsContext.tsx`) is
`{id, referenceDate, macros, events?}`: it carries no name, no description,
and no per-entry job or execution_policy record. -/
theorem script_document_shape_vs_stored_script :
    Lefi.scriptDocumentFields = ["id", "name", "description", "script"] ∧
    Lefi.scriptEntryFields = ["job", "execution_policy", "macros", "expression"] ∧
    Lefi.jobFields =
      ["trigger", "work", "created_at", "status", "start_date", "end_date"] ∧
    Lefi.executionPolicyFields = ["partial_fulfillment", "cancel_unfulfilled"] ∧
    Web.scriptFields = ["id", "referenceDate", "macros", "events"] ∧
    "name" ∉ Web.scriptFields ∧
    "description" ∉ Web.scriptFields ∧
    "job" ∉ Web.scriptFields ∧
    "execution_policy" ∉ Web.scriptFields := by
  decide

/-- C1 counterexample.  The claim that every script the program stores
carries a name, a description, and per-entry job/execution_policy records is
false at the program's own stored `Script` interface
(`ScriptsContext.tsx` lines 16-21): none of those four fields is among its
fields. -/
theorem stored_script_lacks_document_fields :
    "name" ∉ Web.scriptFields ∧
    "description" ∉ Web.scriptFields ∧
    "job" ∉ Web.scriptFields ∧
    "execution_policy" ∉ Web.scriptFields := by
  decide

/-- C2.  For a `Buy`, `Sell` or `Transfer` whose precondition check finds
insufficient funds or units: with `partial_fulfillment = false` the call
fails entirely with `InsufficientFundsError`/`InsufficientSharesError` and
the account state is returned unchanged; with `partial_fulfillment = true`
the call executes the maximal satisfiable quantity — never exceeding the
available balance or units — and records a partial outcome. -/
theorem transaction_policy_arbitration
    (pol : Lefi.ExecutionPolicy) (price : Int) (sym acctId senderId receiverId : String)
    (qty amount : Int) (st : Lefi.AccountState) :
    (st.cash acctId * Lefi.scaleUnit < qty * price →
      (pol.partial_fulfillment = false →
        Lefi.execBuy pol price sym acctId qty st = (.failed .insufficientFunds, st)) ∧
      (pol.partial_fulfillment = true → 0 < price →
        Lefi.execBuy pol price sym acctId qty st =
          (.partialFill (st.cash acctId * Lefi.scaleUnit / price),
            Lefi.buyApply price sym acctId (st.cash acctId * Lefi.scaleUnit / price) st) ∧
        st.cash acctId * Lefi.scaleUnit / price * price ≤ st.cash acctId * Lefi.scaleUnit ∧
        (∀ q' : Int, q' * price ≤ st.cash acctId * Lefi.scaleUnit →
          q' ≤ st.cash acctId * Lefi.scaleUnit / price) ∧
        (0 ≤ st.cash acctId →
          0 ≤ (Lefi.execBuy pol price sym acctId qty st).2.cash acctId))) ∧
    (st.units acctId sym < qty →
      (pol.partial_fulfillment = false →
        Lefi.execSell pol price sym acctId qty st = (.failed .insufficientShares, st)) ∧
      (pol.partial_fulfillment = true →
        Lefi.execSell pol price sym acctId qty st =
          (.partialFill (st.units acctId sym),
            Lefi.sellApply price sym acctId (st.units acctId sym) st) ∧
        (Lefi.execSell pol price sym acctId qty st).2.units acctId sym = 0)) ∧
    (st.cash senderId < amount →
      (pol.partial_fulfillment = false →
        Lefi.execTransfer pol senderId receiverId amount st =
          (.failed .insufficientFunds, st)) ∧
      (pol.partial_fulfillment = true →
        Lefi.execTransfer pol senderId receiverId amount st =
          (.partialFill (st.cash senderId),
            Lefi.transferApply senderId receiverId (st.cash senderId) st) ∧
        (senderId ≠ receiverId →
          (Lefi.execTransfer pol senderId receiverId amount st).2.cash senderId = 0 ∧
          (Lefi.execTransfer pol senderId receiverId amount st).2.cash receiverId =
            st.cash receiverId + st.cash senderId))) := by
  refine ⟨fun hins => ⟨fun hpf => ?_, fun hpf hp => ?_⟩,
    fun hins => ⟨fun hpf => ?_, fun hpf => ?_⟩,
    fun hins => ⟨fun hpf => ?_, fun hpf => ?_⟩⟩
  · have hc : ¬ qty * price ≤ st.cash acctId * Lefi.scaleUnit := by omega
    simp [Lefi.execBuy, hc, hpf]
  · have hc : ¬ qty * price ≤ st.cash acctId * Lefi.scaleUnit := by omega
    have hmain : Lefi.execBuy pol price sym acctId qty st =
        (.partialFill (st.cash acctId * Lefi.scaleUnit / price),
          Lefi.buyApply price sym acctId (st.cash acctId * Lefi.scaleUnit / price) st) := by
      simp [Lefi.execBuy, hc, hpf]
    refine ⟨hmain, Int.ediv_mul_le _ (by omega),
      fun q' hq' => (Int.le_ediv_iff_mul_le hp).mpr hq', fun hbal => ?_⟩
    rw [hmain]
    have hcl : Lefi.ceilScale (st.cash acctId * Lefi.scaleUnit / price * price) ≤
        st.cash acctId := ceilScale_le (Int.ediv_mul_le _ (by omega))
    simp only [Lefi.buyApply]
    simp
    omega
  · have hc : ¬ qty ≤ st.units acctId sym := by omega
    simp [Lefi.execSell, hc, hpf]
  · have hc : ¬ qty ≤ st.units acctId sym := by omega
    have hmain : Lefi.execSell pol price sym acctId qty st =
        (.partialFill (st.units acctId sym),
          Lefi.sellApply price sym acctId (st.units acctId sym) st) := by
      simp [Lefi.execSell, hc, hpf]
    refine ⟨hmain, ?_⟩
    rw [hmain]
    simp [Lefi.sellApply]
  · have hc : ¬ amount ≤ st.cash senderId := by omega
    simp [Lefi.execTransfer, hc, hpf]
  · have hc : ¬ amount ≤ st.cash senderId := by omega
    have hmain : Lefi.execTransfer pol senderId receiverId amount st =
        (.partialFill (st.cash senderId),
          Lefi.transferApply senderId receiverId (st.cash senderId) st) := by
      simp [Lefi.execTransfer, hc, hpf]
    refine ⟨hmain, fun hne => ⟨?_, ?_⟩⟩
    · rw [hmain]
      simp [Lefi.transferApply, hne]
    · rw [hmain]
      have hne' : receiverId ≠ senderId := Ne.symm hne
      simp [Lefi.transferApply, hne']

/-- C2 witness: over `acctFix` (50 cash, 30 AAPL units, price 150), a Buy of
100 units and a Transfer of 100 fail entirely and leave the account
unchanged when partial fulfillment is off, while with it on the Buy executes
the maximal affordable 0.3333 units and the Sell of 100 units executes the
30 held. -/
theorem transaction_policy_arbitration_witness :
    Lefi.execBuy Lefi.polNoPart 1500000 "AAPL" "A" 1000000 Lefi.acctFix =
      (.failed .insufficientFunds, Lefi.acctFix) ∧
    (Lefi.execBuy Lefi.polPart 1500000 "AAPL" "A" 1000000 Lefi.acctFix).1 =
      .partialFill 3333 ∧
    (Lefi.execSell Lefi.polPart 1500000 "AAPL" "A" 1000000 Lefi.acctFix).1 =
      .partialFill 300000 ∧
    Lefi.execTransfer Lefi.polNoPart "A" "B" 1000000 Lefi.acctFix =
      (.failed .insufficientFunds, Lefi.acctFix) := by
  have h1 := transaction_policy_arbitration Lefi.polNoPart 1500000 "AAPL" "A" "A" "B"
    1000000 1000000 Lefi.acctFix
  have h2 := transaction_policy_arbitration Lefi.polPart 1500000 "AAPL" "A" "A" "B"
    1000000 1000000 Lefi.acctFix
  refine ⟨(h1.1 (by decide)).1 rfl, ?_, ?_, (h1.2.2 (by decide)).1 rfl⟩
  · have hb := ((h2.1 (by decide)).2 rfl (by decide)).1
    rw [hb]
    decide
  · have hs := ((h2.2.1 (by decide)).2 rfl).1
    rw [hs]
    decide

/-- C9.  `updateScript` maps each stored script to the update exactly when
the ids match: the list keeps its length and order, every script whose id
differs from the update's is left unchanged, and when no stored id matches
the whole list is unchanged — `updateScript` never inserts. -/
theorem updateScript_frame (scripts : List Web.Script) (u : Web.Script) :
    (Web.updateScript scripts u).length = scripts.length ∧
    (∀ i : Nat, (Web.updateScript scripts u)[i]? =
      (scripts[i]?).map fun s => if s.id = u.id then u else s) ∧
    ((∀ s ∈ scripts, s.id ≠ u.id) → Web.updateScript scripts u = scripts) := by
  refine ⟨List.length_map _ _, fun i => List.getElem?_map _ _ _, fun h => ?_⟩
  simp only [Web.updateScript]
  induction scripts with
  | nil => rfl
  | cons a l ih =>
      simp only [List.mem_cons] at h
      simp only [List.map_cons]
      rw [if_neg (h a (Or.inl rfl)), ih fun s hs => h s (Or.inr hs)]

/-- C9 witness: updating with the unmatched id `c` leaves the stored list
entirely unchanged, and updating with id `b` keeps the two-element list's
length. -/
theorem updateScript_frame_witness :
    Web.updateScript [Web.sA, Web.sB] Web.sC = [Web.sA, Web.sB] ∧
    (Web.updateScript [Web.sA, Web.sB] Web.sB').length = 2 := by
  refine ⟨(updateScript_frame [Web.sA, Web.sB] Web.sC).2.2 (by decide), ?_⟩
  rw [(updateScript_frame [Web.sA, Web.sB] Web.sB').1]
  rfl

/-- C10.  `toggleDrawer open` stores `JSON.stringify open` under the
`drawerOpen` key, and a `DrawerProvider` mounted over that stored value
initializes `drawerOpen` to exactly `open`; with nothing stored it
initializes to `false`. -/
theorem drawer_state_roundtrip :
    (∀ (b : Bool) (saved : Option String),
      (Web.toggleDrawer b saved).2 = some (Web.stringifyBool b) ∧
      Web.drawerInit (Web.toggleDrawer b saved).2 = some b) ∧
    Web.drawerInit none = some false := by
  refine ⟨fun b saved => ⟨rfl, ?_⟩, rfl⟩
  cases b <;> rfl

/-- C3.  `authorize { body }`: before an approval decision is received the
body contributes no side effect (the run merely suspends with the pending
flag raised); on denial every body statement is skipped, the pass ends with
`error = ApprovalDenied`, and the reported `RunResult` has
`authorization_pending = false`; on approval the body executes exactly as it
would outside the gate. -/
theorem authorize_gate (ctx : Lefi.Ctx) (body : Lefi.Node) (st : Lefi.St) :
    (ctx.approval = none →
      Lefi.evalNode ctx (.authorize body) st =
        ({ st with pending := true }, .ok .unit)) ∧
    (ctx.approval = some false →
      Lefi.evalNode ctx (.authorize body) st = (st, .error .approvalDenied) ∧
      (st.pending = false →
        (Lefi.runPass ctx (.authorize body) st).authorization_pending = false ∧
        (Lefi.runPass ctx (.authorize body) st).error = some .approvalDenied ∧
        (Lefi.runPass ctx (.authorize body) st).side_effects = st.effects)) ∧
    (ctx.approval = some true →
      Lefi.evalNode ctx (.authorize body) st = Lefi.evalNode ctx body st) := by
  refine ⟨fun h => ?_, fun h => ⟨?_, fun hp => ?_⟩, fun h => ?_⟩
  · simp [Lefi.evalNode, h]
  · simp [Lefi.evalNode, h]
  · simp [Lefi.runPass, Lefi.evalNode, Lefi.mkRunResult, h, hp]
  · simp [Lefi.evalNode, h]

/-- C3 witness: with `authorize { Buy("AAPL", "A", 1) }` over a fresh state,
a pending decision leaves the side-effect log empty with the pending flag
up; a denial leaves the log empty and reports
`authorization_pending = false, error = ApprovalDenied`; an approval lets
the Buy execute (it lands in the side-effect log). -/
theorem authorize_gate_witness :
    (Lefi.evalNode (Lefi.ctxFix none) (.authorize Lefi.buyCallNode) Lefi.stFix).1.effects
      = [] ∧
    (Lefi.evalNode (Lefi.ctxFix none) (.authorize Lefi.buyCallNode) Lefi.stFix).1.pending
      = true ∧
    (Lefi.evalNode (Lefi.ctxFix (some false))
        (.authorize Lefi.buyCallNode) Lefi.stFix).1.effects = [] ∧
    (Lefi.runPass (Lefi.ctxFix (some false))
        (.authorize Lefi.buyCallNode) Lefi.stFix).authorization_pending = false ∧
    (Lefi.runPass (Lefi.ctxFix (some false))
        (.authorize Lefi.buyCallNode) Lefi.stFix).error = some .approvalDenied ∧
    (Lefi.evalNode (Lefi.ctxFix (some true))
        (.authorize Lefi.buyCallNode) Lefi.stFix).1.effects =
      [.buy "AAPL" "A" 10000 (.partialFill 3333)] := by
  have hn := authorize_gate (Lefi.ctxFix none) Lefi.buyCallNode Lefi.stFix
  have hd := authorize_gate (Lefi.ctxFix (some false)) Lefi.buyCallNode Lefi.stFix
  have ha := authorize_gate (Lefi.ctxFix (some true)) Lefi.buyCallNode Lefi.stFix
  refine ⟨?_, ?_, ?_, ?_, ?_, ?_⟩
  · rw [hn.1 rfl]
    rfl
  · rw [hn.1 rfl]
  · rw [(hd.2.1 rfl).1]
    rfl
  · exact ((hd.2.1 rfl).2 rfl).1
  · exact ((hd.2.1 rfl).2 rfl).2.1
  · rw [ha.2.2 rfl]
    decide

/-- C4.  Arithmetic is exact decimal arithmetic on the fixed-precision
representation: whenever the divisor of a division evaluates to zero the
division fails with `ArithmeticError` (never an infinity); the documented
example `2 * (7 - 3) + 5` evaluates to exactly `13`, and `0.1 + 0.2` to
exactly `0.3` (no binary floating-point drift); and comparisons are exact on
the decimal representation. -/
theorem decimal_arithmetic_exact :
    (∀ (ctx : Lefi.Ctx) (l r : Lefi.Node) (st st₁ st₂ : Lefi.St) (a : Int),
      Lefi.evalNode ctx l st = (st₁, .ok (.num a)) →
      Lefi.evalNode ctx r st₁ = (st₂, .ok (.num 0)) →
      Lefi.evalNode ctx (.binop .div l r) st = (st₂, .error .arithmeticError)) ∧
    (∀ (ctx : Lefi.Ctx) (st : Lefi.St),
      (Lefi.evalNode ctx Lefi.arithTree st).2 = .ok (.num (13 * Lefi.scaleUnit))) ∧
    (∀ (ctx : Lefi.Ctx) (st : Lefi.St),
      (Lefi.evalNode ctx (.binop .add (.num 1000) (.num 2000)) st).2 =
        .ok (.num 3000)) ∧
    (∀ a b : Int, Lefi.applyBin .eq (.num a) (.num b) = .ok (.bool (a = b))) ∧
    (∀ a b : Int, Lefi.applyBin .lt (.num a) (.num b) = .ok (.bool (a < b))) := by
  refine ⟨fun ctx l r st st₁ st₂ a h₁ h₂ => ?_, fun ctx st => ?_, fun ctx st => ?_,
    fun a b => rfl, fun a b => rfl⟩
  · simp only [Lefi.evalNode, h₁, h₂]
    simp [Lefi.applyBin]
  · simp [Lefi.arithTree, Lefi.evalNode, Lefi.applyBin, Lefi.floorScale,
      Lefi.scaleUnit, Lefi.pushTrace]
  · simp [Lefi.evalNode, Lefi.applyBin, Lefi.pushTrace]

/-- C4 witness: dividing 1 by the literal 0 fails with `ArithmeticError`,
and the example tree evaluates to exactly 13. -/
theorem decimal_arithmetic_exact_witness :
    Lefi.evalNode (Lefi.ctxFix none) (.binop .div (.num 10000) (.num 0)) Lefi.stFix =
      (Lefi.pushTrace (.num 0) (Lefi.pushTrace (.num 10000) Lefi.stFix),
        .error .arithmeticError) ∧
    (Lefi.evalNode (Lefi.ctxFix none) Lefi.arithTree Lefi.stFix).2 =
      .ok (.num 130000) := by
  refine ⟨decimal_arithmetic_exact.1 (Lefi.ctxFix none) (.num 10000) (.num 0)
    Lefi.stFix (Lefi.pushTrace (.num 10000) Lefi.stFix)
    (Lefi.pushTrace (.num 0) (Lefi.pushTrace (.num 10000) Lefi.stFix)) 10000 rfl rfl, ?_⟩
  rw [decimal_arithmetic_exact.2.1 (Lefi.ctxFix none) Lefi.stFix]
  rfl

/-- A terminal job is skipped by every event of the trigger loop. -/
theorem runEvents_skip_terminal (pol : Lefi.ExecutionPolicy) (s : Lefi.JobStatus)
    (evs : List (Lefi.JobStatus → Lefi.RunResult)) (h : Lefi.isTerminal s = true) :
    Lefi.runEvents pol s evs = (s, 0) := by
  induction evs with
  | nil => rfl
  | cons e es ih => simp [Lefi.runEvents, Lefi.shouldTrigger, h, ih]

/-- C7.  A Job in a terminal state (`Finalized`, `Cancelled`, or `Failed`
with a non-retryable cause) is never triggered again: the trigger loop runs
zero passes over any event sequence and leaves the status unchanged.  A
`FinalizeBlock` whose body completes without error flips the run's finalized
flag, the state machine maps any finalized `RunResult` to the `Finalized`
status, and `Finalized` is terminal and untriggerable — the job instance is
dequeued from future triggering. -/
theorem terminal_states_stop_triggering (pol : Lefi.ExecutionPolicy) :
    (∀ (s : Lefi.JobStatus) (evs : List (Lefi.JobStatus → Lefi.RunResult)),
      Lefi.isTerminal s = true → Lefi.runEvents pol s evs = (s, 0)) ∧
    (∀ (ctx : Lefi.Ctx) (body : Lefi.Node) (st st' : Lefi.St) (v : Lefi.Value),
      Lefi.evalNode ctx (.finalize body) st = (st', .ok v) → st'.finalized = true) ∧
    (∀ (s : Lefi.JobStatus) (rr : Lefi.RunResult), rr.finalized = true →
      Lefi.stepJob pol s rr = .finalized) ∧
    Lefi.isTerminal .finalized = true ∧
    Lefi.shouldTrigger .finalized = false := by
  refine ⟨fun s evs h => runEvents_skip_terminal pol s evs h,
    fun ctx body st st' v h => ?_, fun s rr h => ?_, rfl, rfl⟩
  · simp only [Lefi.evalNode] at h
    rcases he : Lefi.evalNode ctx body st with ⟨st₁, r⟩
    rw [he] at h
    cases r with
    | error e => simp at h
    | ok w =>
        injection h with h1 h2
        rw [← h1]
  · simp [Lefi.stepJob, h]

/-- C7 witness: a `Finalized` job sees two further events and runs zero
passes; `finalize { }` over a fresh state raises the finalized flag; and the
state machine sends a finalized `RunResult` to `Finalized`, a terminal
status. -/
theorem terminal_states_stop_triggering_witness :
    Lefi.runEvents Lefi.polNoPart .finalized
      [fun _ => ⟨false, false, none, []⟩, fun _ => ⟨false, false, none, []⟩] =
      (.finalized, 0) ∧
    (Lefi.evalNode (Lefi.ctxFix none) (.finalize .skip) Lefi.stFix).1.finalized = true ∧
    Lefi.stepJob Lefi.polNoPart .active ⟨true, false, none, []⟩ = .finalized ∧
    Lefi.isTerminal .finalized = true := by
  have h := terminal_states_stop_triggering Lefi.polNoPart
  refine ⟨h.1 _ _ rfl, ?_, h.2.2.1 .active ⟨true, false, none, []⟩ rfl, h.2.2.2.1⟩
  exact h.2.1 (Lefi.ctxFix none) .skip Lefi.stFix
    (Lefi.evalNode (Lefi.ctxFix none) (.finalize .skip) Lefi.stFix).1 .unit rfl

/-- C6.  Over every straight-line expression tree, a successful Evaluator
pass visits nodes exactly in the tree's structural order: the trace it
appends is the tree's postorder — statements in sequence, operands
left-to-right before their operator, leaves before their parents. -/
theorem evaluation_structural_order :
    ∀ (n : Lefi.Node) (ctx : Lefi.Ctx) (st st' : Lefi.St) (v : Lefi.Value),
      Lefi.straightLine n = true →
      Lefi.evalNode ctx n st = (st', .ok v) →
      st'.trace = st.trace ++ Lefi.postOrder n := by
  intro n ctx
  induction n with
  | num m =>
      intro st st' v _ h
      injection h with h1 h2
      rw [← h1]
      simp [Lefi.pushTrace, Lefi.postOrder]
  | boolLit b =>
      intro st st' v _ h
      injection h with h1 h2
      rw [← h1]
      simp [Lefi.pushTrace, Lefi.postOrder]
  | strLit s =>
      intro st st' v _ h
      injection h with h1 h2
      rw [← h1]
      simp [Lefi.pushTrace, Lefi.postOrder]
  | var name pos =>
      intro st st' v _ h
      simp only [Lefi.evalNode] at h
      rcases hf : Lefi.lookupEnv st.env name with _ | val
      · rw [hf] at h
        simp at h
      · rw [hf] at h
        injection h with h1 h2
        rw [← h1]
        simp [Lefi.pushTrace, Lefi.postOrder]
  | skip =>
      intro st st' v _ h
      injection h with h1 h2
      rw [← h1]
      simp [Lefi.pushTrace, Lefi.postOrder]
  | binop op l r ihl ihr =>
      intro st st' v hsl h
      simp only [Lefi.straightLine, Bool.and_eq_true] at hsl
      simp only [Lefi.evalNode] at h
      rcases h1 : Lefi.evalNode ctx l st with ⟨st₁, r₁⟩
      rw [h1] at h
      cases r₁ with
      | error e => simp at h
      | ok v₁ =>
          dsimp only at h
          rcases h2 : Lefi.evalNode ctx r st₁ with ⟨st₂, r₂⟩
          rw [h2] at h
          cases r₂ with
          | error e => simp at h
          | ok v₂ =>
              dsimp only at h
              cases h3 : Lefi.applyBin op v₁ v₂ with
              | error e =>
                  rw [h3] at h
                  simp at h
              | ok w =>
                  rw [h3] at h
                  dsimp only at h
                  injection h with h4 h5
                  rw [← h4]
                  have e1 := ihl st st₁ v₁ hsl.1 h1
                  have e2 := ihr st₁ st₂ v₂ hsl.2 h2
                  simp [Lefi.pushTrace, Lefi.postOrder, e1, e2]
  | neg e ih =>
      intro st st' v hsl h
      simp only [Lefi.straightLine] at hsl
      simp only [Lefi.evalNode] at h
      rcases h1 : Lefi.evalNode ctx e st with ⟨st₁, r₁⟩
      rw [h1] at h
      cases r₁ with
      | error err => simp at h
      | ok w =>
          cases w with
          | num a =>
              dsimp only at h
              injection h with h4 h5
              rw [← h4]
              have e1 := ih st st₁ (.num a) hsl h1
              simp [Lefi.pushTrace, Lefi.postOrder, e1]
          | bool b => simp at h
          | str s => simp at h
          | unit => simp at h
  | assign name rhs ih =>
      intro st st' v hsl h
      simp only [Lefi.straightLine] at hsl
      simp only [Lefi.evalNode] at h
      rcases h1 : Lefi.evalNode ctx rhs st with ⟨st₁, r₁⟩
      rw [h1] at h
      cases r₁ with
      | error e => simp at h
      | ok v₁ =>
          dsimp only at h
          injection h with h4 h5
          rw [← h4]
          have e1 := ih st st₁ v₁ hsl h1
          simp [Lefi.pushTrace, Lefi.postOrder, e1]
  | seq a b iha ihb =>
      intro st st' v hsl h
      simp only [Lefi.straightLine, Bool.and_eq_true] at hsl
      simp only [Lefi.evalNode] at h
      rcases h1 : Lefi.evalNode ctx a st with ⟨st₁, r₁⟩
      rw [h1] at h
      cases r₁ with
      | error e => simp at h
      | ok v₁ =>
          dsimp only at h
          rcases h2 : Lefi.evalNode ctx b st₁ with ⟨st₂, r₂⟩
          rw [h2] at h
          cases r₂ with
          | error e => simp at h
          | ok v₂ =>
              dsimp only at h
              injection h with h4 h5
              rw [← h4]
              have e1 := iha st st₁ v₁ hsl.1 h1
              have e2 := ihb st₁ st₂ v₂ hsl.2 h2
              simp [Lefi.pushTrace, Lefi.postOrder, e1, e2]
  | pays e ih =>
      intro st st' v hsl h
      simp only [Lefi.straightLine] at hsl
      simp only [Lefi.evalNode] at h
      rcases h1 : Lefi.evalNode ctx e st with ⟨st₁, r₁⟩
      rw [h1] at h
      cases r₁ with
      | error err => simp at h
      | ok w =>
          cases w with
          | num a =>
              dsimp only at h
              injection h with h4 h5
              rw [← h4]
              have e1 := ih st st₁ (.num a) hsl h1
              simp [Lefi.pushTrace, Lefi.postOrder, e1]
          | bool b => simp at h
          | str s => simp at h
          | unit => simp at h
  | ifThen c b _ _ =>
      intro st st' v hsl h
      simp [Lefi.straightLine] at hsl
  | authorize b _ =>
      intro st st' v hsl h
      simp [Lefi.straightLine] at hsl
  | finalize b _ =>
      intro st st' v hsl h
      simp [Lefi.straightLine] at hsl
  | call1 m a _ =>
      intro st st' v hsl h
      simp [Lefi.straightLine] at hsl
  | call2 m a b _ _ =>
      intro st st' v hsl h
      simp [Lefi.straightLine] at hsl
  | call3 m a b c _ _ _ =>
      intro st st' v hsl h
      simp [Lefi.straightLine] at hsl

/-- C6 witness: for the documented example `z = x + 2 * (y - 3)` with
`x = 1, y = 5` the pass's trace is exactly the tree's postorder — the
subtraction before the multiplication before the addition before the
assignment. -/
theorem evaluation_structural_order_witness :
    (Lefi.evalNode (Lefi.ctxFix none) Lefi.zTree Lefi.stXY).1.trace =
      Lefi.stXY.trace ++ Lefi.postOrder Lefi.zTree ∧
    Lefi.postOrder Lefi.zTree =
      [.var "x" 0, .num 20000, .var "y" 1, .num 30000,
        .binop .sub (.var "y" 1) (.num 30000),
        .binop .mul (.num 20000) (.binop .sub (.var "y" 1) (.num 30000)),
        .binop .add (.var "x" 0)
          (.binop .mul (.num 20000) (.binop .sub (.var "y" 1) (.num 30000))),
        Lefi.zTree] := by
  refine ⟨evaluation_structural_order Lefi.zTree (Lefi.ctxFix none) Lefi.stXY
    (Lefi.evalNode (Lefi.ctxFix none) Lefi.zTree Lefi.stXY).1 (.num 50000) rfl rfl,
    by decide⟩

/-- When every reference of a tree resolves, the Indexer succeeds and
returns exactly the threaded definition set. -/
theorem indexNode_ok : ∀ (n : Lefi.Node) (ds : List String),
    Lefi.refsOk n ds = true → Lefi.indexNode n ds = .ok (Lefi.defsOut n ds) := by
  intro n
  induction n with
  | num m => intro ds h; rfl
  | boolLit b => intro ds h; rfl
  | strLit s => intro ds h; rfl
  | skip => intro ds h; rfl
  | var name pos =>
      intro ds h
      simp only [Lefi.refsOk, decide_eq_true_eq] at h
      simp [Lefi.indexNode, Lefi.defsOut, h]
  | binop op l r ihl ihr =>
      intro ds h
      simp only [Lefi.refsOk, Bool.and_eq_true] at h
      simp only [Lefi.indexNode, ihl ds h.1, Lefi.defsOut]
      exact ihr _ h.2
  | neg e ih =>
      intro ds h
      simp only [Lefi.refsOk] at h
      simp only [Lefi.indexNode, Lefi.defsOut]
      exact ih ds h
  | assign name rhs ih =>
      intro ds h
      simp only [Lefi.refsOk] at h
      simp only [Lefi.indexNode, ih ds h, Lefi.defsOut]
  | seq a b iha ihb =>
      intro ds h
      simp only [Lefi.refsOk, Bool.and_eq_true] at h
      simp only [Lefi.indexNode, iha ds h.1, Lefi.defsOut]
      exact ihb _ h.2
  | ifThen c b ihc ihb =>
      intro ds h
      simp only [Lefi.refsOk, Bool.and_eq_true] at h
      simp only [Lefi.indexNode, ihc ds h.1, Lefi.defsOut]
      exact ihb _ h.2
  | authorize b ih =>
      intro ds h
      simp only [Lefi.refsOk] at h
      simp only [Lefi.indexNode, Lefi.defsOut]
      exact ih ds h
  | finalize b ih =>
      intro ds h
      simp only [Lefi.refsOk] at h
      simp only [Lefi.indexNode, Lefi.defsOut]
      exact ih ds h
  | pays e ih =>
      intro ds h
      simp only [Lefi.refsOk] at h
      simp only [Lefi.indexNode, Lefi.defsOut]
      exact ih ds h
  | call1 m a ih =>
      intro ds h
      simp only [Lefi.refsOk] at h
      simp only [Lefi.indexNode, Lefi.defsOut]
      exact ih ds h
  | call2 m a b iha ihb =>
      intro ds h
      simp only [Lefi.refsOk, Bool.and_eq_true] at h
      simp only [Lefi.indexNode, iha ds h.1, Lefi.defsOut]
      exact ihb _ h.2
  | call3 m a b c iha ihb ihc =>
      intro ds h
      simp only [Lefi.refsOk, Bool.and_eq_true] at h
      simp only [Lefi.indexNode, iha ds h.1, ihb _ h.2.1, Lefi.defsOut]
      exact ihc _ h.2.2

/-- When some reference of a tree does not resolve, the Indexer fails with
an `UnresolvedReferenceError` naming an identifier and its position. -/
theorem indexNode_err : ∀ (n : Lefi.Node) (ds : List String),
    Lefi.refsOk n ds = false →
    ∃ nm p, Lefi.indexNode n ds = .error (.unresolvedRef nm p) := by
  intro n
  induction n with
  | num m => intro ds h; simp [Lefi.refsOk] at h
  | boolLit b => intro ds h; simp [Lefi.refsOk] at h
  | strLit s => intro ds h; simp [Lefi.refsOk] at h
  | skip => intro ds h; simp [Lefi.refsOk] at h
  | var name pos =>
      intro ds h
      simp only [Lefi.refsOk, decide_eq_false_iff_not] at h
      exact ⟨name, pos, by simp [Lefi.indexNode, h]⟩
  | binop op l r ihl ihr =>
      intro ds h
      cases hl : Lefi.refsOk l ds with
      | false =>
          obtain ⟨nm, p, herr⟩ := ihl ds hl
          exact ⟨nm, p, by simp [Lefi.indexNode, herr]⟩
      | true =>
          have hr : Lefi.refsOk r (Lefi.defsOut l ds) = false := by
            simpa [Lefi.refsOk, hl] using h
          obtain ⟨nm, p, herr⟩ := ihr _ hr
          exact ⟨nm, p, by simp [Lefi.indexNode, indexNode_ok l ds hl, herr]⟩
  | neg e ih =>
      intro ds h
      simp only [Lefi.refsOk] at h
      obtain ⟨nm, p, herr⟩ := ih ds h
      exact ⟨nm, p, by simp [Lefi.indexNode, herr]⟩
  | assign name rhs ih =>
      intro ds h
      simp only [Lefi.refsOk] at h
      obtain ⟨nm, p, herr⟩ := ih ds h
      exact ⟨nm, p, by simp [Lefi.indexNode, herr]⟩
  | seq a b iha ihb =>
      intro ds h
      cases ha : Lefi.refsOk a ds with
      | false =>
          obtain ⟨nm, p, herr⟩ := iha ds ha
          exact ⟨nm, p, by simp [Lefi.indexNode, herr]⟩
      | true =>
          have hb : Lefi.refsOk b (Lefi.defsOut a ds) = false := by
            simpa [Lefi.refsOk, ha] using h
          obtain ⟨nm, p, herr⟩ := ihb _ hb
          exact ⟨nm, p, by simp [Lefi.indexNode, indexNode_ok a ds ha, herr]⟩
  | ifThen c b ihc ihb =>
      intro ds h
      cases hc : Lefi.refsOk c ds with
      | false =>
          obtain ⟨nm, p, herr⟩ := ihc ds hc
          exact ⟨nm, p, by simp [Lefi.indexNode, herr]⟩
      | true =>
          have hb : Lefi.refsOk b (Lefi.defsOut c ds) = false := by
            simpa [Lefi.refsOk, hc] using h
          obtain ⟨nm, p, herr⟩ := ihb _ hb
          exact ⟨nm, p, by simp [Lefi.indexNode, indexNode_ok c ds hc, herr]⟩
  | authorize b ih =>
      intro ds h
      simp only [Lefi.refsOk] at h
      obtain ⟨nm, p, herr⟩ := ih ds h
      exact ⟨nm, p, by simp [Lefi.indexNode, herr]⟩
  | finalize b ih =>
      intro ds h
      simp only [Lefi.refsOk] at h
      obtain ⟨nm, p, herr⟩ := ih ds h
      exact ⟨nm, p, by simp [Lefi.indexNode, herr]⟩
  | pays e ih =>
      intro ds h
      simp only [Lefi.refsOk] at h
      obtain ⟨nm, p, herr⟩ := ih ds h
      exact ⟨nm, p, by simp [Lefi.indexNode, herr]⟩
  | call1 m a ih =>
      intro ds h
      simp only [Lefi.refsOk] at h
      obtain ⟨nm, p, herr⟩ := ih ds h
      exact ⟨nm, p, by simp [Lefi.indexNode, herr]⟩
  | call2 m a b iha ihb =>
      intro ds h
      cases ha : Lefi.refsOk a ds with
      | false =>
          obtain ⟨nm, p, herr⟩ := iha ds ha
          exact ⟨nm, p, by simp [Lefi.indexNode, herr]⟩
      | true =>
          have hb : Lefi.refsOk b (Lefi.defsOut a ds) = false := by
            simpa [Lefi.refsOk, ha] using h
          obtain ⟨nm, p, herr⟩ := ihb _ hb
          exact ⟨nm, p, by simp [Lefi.indexNode, indexNode_ok a ds ha, herr]⟩
  | call3 m a b c iha ihb ihc =>
      intro ds h
      cases ha : Lefi.refsOk a ds with
      | false =>
          obtain ⟨nm, p, herr⟩ := iha ds ha
          exact ⟨nm, p, by simp [Lefi.indexNode, herr]⟩
      | true =>
          cases hb : Lefi.refsOk b (Lefi.defsOut a ds) with
          | false =>
              obtain ⟨nm, p, herr⟩ := ihb _ hb
              exact ⟨nm, p, by simp [Lefi.indexNode, indexNode_ok a ds ha, herr]⟩
          | true =>
              have hc : Lefi.refsOk c (Lefi.defsOut b (Lefi.defsOut a ds)) = false := by
                simpa [Lefi.refsOk, ha, hb] using h
              obtain ⟨nm, p, herr⟩ := ihc _ hc
              exact ⟨nm, p, by simp [Lefi.indexNode, indexNode_ok a ds ha,
                indexNode_ok b _ hb, herr]⟩

/-- A tree without assignments adds no definition. -/
theorem noAssign_defsOut : ∀ (n : Lefi.Node) (ds : List String),
    Lefi.noAssign n = true → Lefi.defsOut n ds = ds := by
  intro n
  induction n with
  | num m => intro ds h; rfl
  | boolLit b => intro ds h; rfl
  | strLit s => intro ds h; rfl
  | skip => intro ds h; rfl
  | var name pos => intro ds h; rfl
  | binop op l r ihl ihr =>
      intro ds h
      simp only [Lefi.noAssign, Bool.and_eq_true] at h
      simp only [Lefi.defsOut, ihl ds h.1, ihr ds h.2]
  | neg e ih =>
      intro ds h
      simp only [Lefi.noAssign] at h
      simp only [Lefi.defsOut, ih ds h]
  | assign name rhs ih =>
      intro ds h
      simp [Lefi.noAssign] at h
  | seq a b iha ihb =>
      intro ds h
      simp only [Lefi.noAssign, Bool.and_eq_true] at h
      simp only [Lefi.defsOut, iha ds h.1, ihb ds h.2]
  | ifThen c b ihc ihb =>
      intro ds h
      simp only [Lefi.noAssign, Bool.and_eq_true] at h
      simp only [Lefi.defsOut, ihc ds h.1, ihb ds h.2]
  | authorize b ih =>
      intro ds h
      simp only [Lefi.noAssign] at h
      simp only [Lefi.defsOut, ih ds h]
  | finalize b ih =>
      intro ds h
      simp only [Lefi.noAssign] at h
      simp only [Lefi.defsOut, ih ds h]
  | pays e ih =>
      intro ds h
      simp only [Lefi.noAssign] at h
      simp only [Lefi.defsOut, ih ds h]
  | call1 m a ih =>
      intro ds h
      simp only [Lefi.noAssign] at h
      simp only [Lefi.defsOut, ih ds h]
  | call2 m a b iha ihb =>
      intro ds h
      simp only [Lefi.noAssign, Bool.and_eq_true] at h
      simp only [Lefi.defsOut, iha ds h.1, ihb ds h.2]
  | call3 m a b c iha ihb ihc =>
      intro ds h
      simp only [Lefi.noAssign, Bool.and_eq_true] at h
      simp only [Lefi.defsOut, iha ds h.1, ihb ds h.2.1, ihc ds h.2.2]

/-- The Indexer over a macro list with distinct keys and assignment-free
constructor values: it succeeds with the threaded definition set exactly
when every macro value's references resolve, and otherwise fails with an
`UnresolvedReferenceError`. -/
theorem indexMacros_spec : ∀ (ms : List (String × Lefi.Node)) (ds : List String),
    (∀ p ∈ ms, Lefi.noAssign p.2 = true) →
    (ms.map Prod.fst).Nodup →
    (∀ p ∈ ms, p.1 ∉ ds) →
    (Lefi.refsOkMacros ms ds = true →
      Lefi.indexMacros ms ds = .ok (Lefi.macrosDefs ms ds)) ∧
    (Lefi.refsOkMacros ms ds = false →
      ∃ nm p, Lefi.indexMacros ms ds = .error (.unresolvedRef nm p)) := by
  intro ms
  induction ms with
  | nil =>
      intro ds _ _ _
      exact ⟨fun _ => rfl, fun h => by simp [Lefi.refsOkMacros] at h⟩
  | cons kv ms ih =>
      obtain ⟨k, v⟩ := kv
      intro ds hna hnd hdisj
      have hnav : Lefi.noAssign v = true := hna (k, v) (List.mem_cons_self _ _)
      have hdv : Lefi.defsOut v ds = ds := noAssign_defsOut v ds hnav
      have hk : k ∉ ds := hdisj (k, v) (List.mem_cons_self _ _)
      have hknot : k ∉ ms.map Prod.fst := by
        have := hnd
        simp only [List.map_cons, List.nodup_cons] at this
        exact this.1
      have hnd' : (ms.map Prod.fst).Nodup := by
        have := hnd
        simp only [List.map_cons, List.nodup_cons] at this
        exact this.2
      have hna' : ∀ p ∈ ms, Lefi.noAssign p.2 = true :=
        fun p hp => hna p (List.mem_cons_of_mem _ hp)
      have hdisj' : ∀ p ∈ ms, p.1 ∉ k :: ds := by
        intro p hp
        simp only [List.mem_cons, not_or]
        refine ⟨fun hpk => hknot ?_, hdisj p (List.mem_cons_of_mem _ hp)⟩
        rw [← hpk]
        exact List.mem_map_of_mem Prod.fst hp
      constructor
      · intro h
        simp only [Lefi.refsOkMacros, Bool.and_eq_true] at h
        obtain ⟨h1, h2⟩ := h
        rw [hdv] at h2
        simp only [Lefi.indexMacros, indexNode_ok v ds h1]
        rw [hdv, if_neg hk]
        simp only [Lefi.macrosDefs, hdv]
        exact (ih (k :: ds) hna' hnd' hdisj').1 h2
      · intro h
        cases hv : Lefi.refsOk v ds with
        | false =>
            obtain ⟨nm, p, herr⟩ := indexNode_err v ds hv
            exact ⟨nm, p, by simp [Lefi.indexMacros, herr]⟩
        | true =>
            have hrest : Lefi.refsOkMacros ms (k :: ds) = false := by
              have := h
              simp only [Lefi.refsOkMacros, hv, Bool.true_and, hdv] at this
              exact this
            obtain ⟨nm, p, herr⟩ := (ih (k :: ds) hna' hnd' hdisj').2 hrest
            refine ⟨nm, p, ?_⟩
            simp only [Lefi.indexMacros, indexNode_ok v ds hv]
            rw [hdv, if_neg hk]
            exact herr

/-- C5.  For a script whose macro list has distinct keys and assignment-free
constructor values: the Indexer accepts exactly when every `VariableRef` has
a prior macro or assignment defining it, fails with an
`UnresolvedReferenceError` naming an identifier and its position when some
reference does not, and whenever the Indexer reports any error the engine
never evaluates — the run returns that error with an empty side-effect
sequence. -/
theorem indexer_resolution (macros : List (String × Lefi.Node)) (root : Lefi.Node)
    (ctx : Lefi.Ctx) (st : Lefi.St)
    (hnd : (macros.map Prod.fst).Nodup)
    (hna : ∀ p ∈ macros, Lefi.noAssign p.2 = true) :
    ((Lefi.refsOkScript macros root = true →
        Lefi.indexScript macros root =
          .ok (Lefi.defsOut root (Lefi.macrosDefs macros []))) ∧
      (Lefi.refsOkScript macros root = false →
        ∃ nm pos, Lefi.indexScript macros root = .error (.unresolvedRef nm pos))) ∧
    (∀ e, Lefi.indexScript macros root = .error e →
      Lefi.runScript ctx macros root st =
        { finalized := false, authorization_pending := false,
          error := some (Lefi.indexErrKind e), side_effects := [] }) := by
  have hm := indexMacros_spec macros [] hna hnd (by simp)
  refine ⟨⟨fun h => ?_, fun h => ?_⟩, fun e he => ?_⟩
  · simp only [Lefi.refsOkScript, Bool.and_eq_true] at h
    simp only [Lefi.indexScript, hm.1 h.1]
    exact indexNode_ok root _ h.2
  · cases hq : Lefi.refsOkMacros macros [] with
    | false =>
        obtain ⟨nm, p, herr⟩ := hm.2 hq
        exact ⟨nm, p, by simp [Lefi.indexScript, herr]⟩
    | true =>
        have hroot : Lefi.refsOk root (Lefi.macrosDefs macros []) = false := by
          simpa [Lefi.refsOkScript, hq] using h
        obtain ⟨nm, p, herr⟩ := indexNode_err root _ hroot
        exact ⟨nm, p, by simp [Lefi.indexScript, hm.1 hq, herr]⟩
  · simp [Lefi.runScript, he]

/-- C5 witness: with the macro `stock = Spot("AAPL")`, the script
`x = stock` is accepted, while a script referencing the undeclared `nope` at
position 42 is rejected with `UnresolvedReferenceError` and its run
evaluates nothing: the `RunResult` carries the Indexer error and an empty
side-effect sequence. -/
theorem indexer_resolution_witness :
    Lefi.indexScript Lefi.macrosFix Lefi.rootResolved =
      .ok (Lefi.defsOut Lefi.rootResolved (Lefi.macrosDefs Lefi.macrosFix [])) ∧
    (∃ nm pos, Lefi.indexScript Lefi.macrosFix Lefi.rootUnresolved =
      .error (.unresolvedRef nm pos)) ∧
    Lefi.runScript (Lefi.ctxFix none) Lefi.macrosFix Lefi.rootUnresolved Lefi.stFix =
      { finalized := false, authorization_pending := false,
        error := some (.unresolvedReference "nope" 42), side_effects := [] } := by
  have h1 := indexer_resolution Lefi.macrosFix Lefi.rootResolved (Lefi.ctxFix none)
    Lefi.stFix (by decide) (by decide)
  have h2 := indexer_resolution Lefi.macrosFix Lefi.rootUnresolved (Lefi.ctxFix none)
    Lefi.stFix (by decide) (by decide)
  exact ⟨h1.1.1 (by decide), h2.1.2 (by decide),
    h2.2 (.unresolvedRef "nope" 42) rfl⟩

set_option maxHeartbeats 1000000 in
/-- Every tokenizer failure carries a nonempty expectation message. -/
theorem tokenize_err : ∀ (fuel : Nat) (cs : List Char) (line col : Nat)
    (e : Lefi.SyntaxError), Lefi.tokenize fuel cs line col = .error e →
    e.expected ≠ "" := by
  intro fuel
  induction fuel with
  | zero =>
      intro cs line col e h
      simp only [Lefi.tokenize] at h
      injection h with hh
      subst hh
      dsimp only
      decide
  | succ fuel ih =>
      intro cs line col e h
      cases cs with
      | nil => simp [Lefi.tokenize] at h
      | cons c rest =>
          rw [Lefi.tokenize.eq_def] at h
          dsimp only at h
          by_cases hc1 : c = '\n'
          · rw [if_pos hc1] at h
            exact ih _ _ _ _ h
          rw [if_neg hc1] at h
          by_cases hc2 : (decide (c = ' ') || decide (c = '\t') || decide (c = '\x0d')) = true
          · rw [if_pos hc2] at h
            exact ih _ _ _ _ h
          rw [if_neg hc2] at h
          by_cases hc3 : Lefi.isDigitCh c = true
          · rw [if_pos hc3] at h
            repeat' split at h
            all_goals first
              | exact Except.noConfusion h
              | (injection h with hh; subst hh;
                  first
                    | (dsimp only; decide)
                    | exact ih _ _ _ _ (by assumption))
          rw [if_neg hc3] at h
          by_cases hc4 : Lefi.isIdentHeadCh c = true
          · rw [if_pos hc4] at h
            repeat' split at h
            all_goals first
              | exact Except.noConfusion h
              | (injection h with hh; subst hh;
                  first
                    | (dsimp only; decide)
                    | exact ih _ _ _ _ (by assumption))
          rw [if_neg hc4] at h
          by_cases hc5 : c = '"'
          · rw [if_pos hc5] at h
            repeat' split at h
            all_goals first
              | exact Except.noConfusion h
              | (injection h with hh; subst hh;
                  first
                    | (dsimp only; decide)
                    | exact ih _ _ _ _ (by assumption))
          rw [if_neg hc5] at h
          by_cases hc6 : c = '='
          · rw [if_pos hc6] at h
            repeat' split at h
            all_goals first
              | exact Except.noConfusion h
              | (injection h with hh; subst hh;
                  first
                    | (dsimp only; decide)
                    | exact ih _ _ _ _ (by assumption))
          rw [if_neg hc6] at h
          repeat' split at h
          all_goals first
            | exact Except.noConfusion h
            | (injection h with hh; subst hh;
                first
                  | (dsimp only; decide)
                  | exact ih _ _ _ _ (by assumption))

set_option maxHeartbeats 4000000 in
/-- Every failure of any parsing routine carries a nonempty expectation
message. -/
theorem parser_err_wf : ∀ fuel : Nat,
    (∀ toks e, Lefi.parsePrimary fuel toks = .error e → e.expected ≠ "") ∧
    (∀ toks e, Lefi.parseUnary fuel toks = .error e → e.expected ≠ "") ∧
    (∀ acc toks e, Lefi.parseMulRest fuel acc toks = .error e → e.expected ≠ "") ∧
    (∀ toks e, Lefi.parseMul fuel toks = .error e → e.expected ≠ "") ∧
    (∀ acc toks e, Lefi.parseAddRest fuel acc toks = .error e → e.expected ≠ "") ∧
    (∀ toks e, Lefi.parseAdd fuel toks = .error e → e.expected ≠ "") ∧
    (∀ toks e, Lefi.parseExpr fuel toks = .error e → e.expected ≠ "") ∧
    (∀ toks e, Lefi.parseStmt fuel toks = .error e → e.expected ≠ "") ∧
    (∀ toks e, Lefi.parseStmts fuel toks = .error e → e.expected ≠ "") := by
  intro fuel
  induction fuel with
  | zero =>
      refine ⟨fun toks e h => ?_, fun toks e h => ?_, fun acc toks e h => ?_,
        fun toks e h => ?_, fun acc toks e h => ?_, fun toks e h => ?_,
        fun toks e h => ?_, fun toks e h => ?_, fun toks e h => ?_⟩ <;>
      · first
          | simp only [Lefi.parsePrimary] at h
          | simp only [Lefi.parseUnary] at h
          | simp only [Lefi.parseMulRest] at h
          | simp only [Lefi.parseMul] at h
          | simp only [Lefi.parseAddRest] at h
          | simp only [Lefi.parseAdd] at h
          | simp only [Lefi.parseExpr] at h
          | simp only [Lefi.parseStmt] at h
          | simp only [Lefi.parseStmts] at h
        injection h with hh
        subst hh
        dsimp only
        decide
  | succ fuel ih =>
      obtain ⟨ih1, ih2, ih3, ih4, ih5, ih6, ih7, ih8, ih9⟩ := ih
      refine ⟨fun toks e h => ?_, fun toks e h => ?_, fun acc toks e h => ?_,
        fun toks e h => ?_, fun acc toks e h => ?_, fun toks e h => ?_,
        fun toks e h => ?_, fun toks e h => ?_, fun toks e h => ?_⟩
      · cases toks with
        | nil =>
            rw [Lefi.parsePrimary.eq_def] at h
            dsimp only at h
            repeat' split at h
            all_goals first
              | exact Except.noConfusion h
              | exact ih1 _ _ h
              | exact ih2 _ _ h
              | exact ih3 _ _ _ h
              | exact ih4 _ _ h
              | exact ih5 _ _ _ h
              | exact ih6 _ _ h
              | exact ih7 _ _ h
              | exact ih8 _ _ h
              | exact ih9 _ _ h
              | (injection h with hh; subst hh;
                  first
                    | (dsimp only [Lefi.tokErr, Lefi.eofErr]; decide)
                    | exact ih1 _ _ (by assumption)
                    | exact ih2 _ _ (by assumption)
                    | exact ih3 _ _ _ (by assumption)
                    | exact ih4 _ _ (by assumption)
                    | exact ih5 _ _ _ (by assumption)
                    | exact ih6 _ _ (by assumption)
                    | exact ih7 _ _ (by assumption)
                    | exact ih8 _ _ (by assumption)
                    | exact ih9 _ _ (by assumption))
        | cons t ts =>
            rw [Lefi.parsePrimary.eq_def] at h
            dsimp only at h
            repeat' split at h
            all_goals first
              | exact Except.noConfusion h
              | exact ih1 _ _ h
              | exact ih2 _ _ h
              | exact ih3 _ _ _ h
              | exact ih4 _ _ h
              | exact ih5 _ _ _ h
              | exact ih6 _ _ h
              | exact ih7 _ _ h
              | exact ih8 _ _ h
              | exact ih9 _ _ h
              | (injection h with hh; subst hh;
                  first
                    | (dsimp only [Lefi.tokErr, Lefi.eofErr]; decide)
                    | exact ih1 _ _ (by assumption)
                    | exact ih2 _ _ (by assumption)
                    | exact ih3 _ _ _ (by assumption)
                    | exact ih4 _ _ (by assumption)
                    | exact ih5 _ _ _ (by assumption)
                    | exact ih6 _ _ (by assumption)
                    | exact ih7 _ _ (by assumption)
                    | exact ih8 _ _ (by assumption)
                    | exact ih9 _ _ (by assumption))
      · cases toks with
        | nil =>
            rw [Lefi.parseUnary.eq_def] at h
            dsimp only at h
            repeat' split at h
            all_goals first
              | exact Except.noConfusion h
              | exact ih1 _ _ h
              | exact ih2 _ _ h
              | exact ih3 _ _ _ h
              | exact ih4 _ _ h
              | exact ih5 _ _ _ h
              | exact ih6 _ _ h
              | exact ih7 _ _ h
              | exact ih8 _ _ h
              | exact ih9 _ _ h
              | (injection h with hh; subst hh;
                  first
                    | (dsimp only [Lefi.tokErr, Lefi.eofErr]; decide)
                    | exact ih1 _ _ (by assumption)
                    | exact ih2 _ _ (by assumption)
                    | exact ih3 _ _ _ (by assumption)
                    | exact ih4 _ _ (by assumption)
                    | exact ih5 _ _ _ (by assumption)
                    | exact ih6 _ _ (by assumption)
                    | exact ih7 _ _ (by assumption)
                    | exact ih8 _ _ (by assumption)
                    | exact ih9 _ _ (by assumption))
        | cons t ts =>
            rw [Lefi.parseUnary.eq_def] at h
            dsimp only at h
            repeat' split at h
            all_goals first
              | exact Except.noConfusion h
              | exact ih1 _ _ h
              | exact ih2 _ _ h
              | exact ih3 _ _ _ h
              | exact ih4 _ _ h
              | exact ih5 _ _ _ h
              | exact ih6 _ _ h
              | exact ih7 _ _ h
              | exact ih8 _ _ h
              | exact ih9 _ _ h
              | (injection h with hh; subst hh;
                  first
                    | (dsimp only [Lefi.tokErr, Lefi.eofErr]; decide)
                    | exact ih1 _ _ (by assumption)
                    | exact ih2 _ _ (by assumption)
                    | exact ih3 _ _ _ (by assumption)
                    | exact ih4 _ _ (by assumption)
                    | exact ih5 _ _ _ (by assumption)
                    | exact ih6 _ _ (by assumption)
                    | exact ih7 _ _ (by assumption)
                    | exact ih8 _ _ (by assumption)
                    | exact ih9 _ _ (by assumption))
      · rw [Lefi.parseMulRest.eq_def] at h
        dsimp only at h
        repeat' split at h
        all_goals first
          | exact Except.noConfusion h
          | exact ih1 _ _ h
          | exact ih2 _ _ h
          | exact ih3 _ _ _ h
          | exact ih4 _ _ h
          | exact ih5 _ _ _ h
          | exact ih6 _ _ h
          | exact ih7 _ _ h
          | exact ih8 _ _ h
          | exact ih9 _ _ h
          | (injection h with hh; subst hh;
              first
                | (dsimp only [Lefi.tokErr, Lefi.eofErr]; decide)
                | exact ih1 _ _ (by assumption)
                | exact ih2 _ _ (by assumption)
                | exact ih3 _ _ _ (by assumption)
                | exact ih4 _ _ (by assumption)
                | exact ih5 _ _ _ (by assumption)
                | exact ih6 _ _ (by assumption)
                | exact ih7 _ _ (by assumption)
                | exact ih8 _ _ (by assumption)
                | exact ih9 _ _ (by assumption))
      · rw [Lefi.parseMul.eq_def] at h
        dsimp only at h
        repeat' split at h
        all_goals first
          | exact Except.noConfusion h
          | exact ih1 _ _ h
          | exact ih2 _ _ h
          | exact ih3 _ _ _ h
          | exact ih4 _ _ h
          | exact ih5 _ _ _ h
          | exact ih6 _ _ h
          | exact ih7 _ _ h
          | exact ih8 _ _ h
          | exact ih9 _ _ h
          | (injection h with hh; subst hh;
              first
                | (dsimp only [Lefi.tokErr, Lefi.eofErr]; decide)
                | exact ih1 _ _ (by assumption)
                | exact ih2 _ _ (by assumption)
                | exact ih3 _ _ _ (by assumption)
                | exact ih4 _ _ (by assumption)
                | exact ih5 _ _ _ (by assumption)
                | exact ih6 _ _ (by assumption)
                | exact ih7 _ _ (by assumption)
                | exact ih8 _ _ (by assumption)
                | exact ih9 _ _ (by assumption))
      · rw [Lefi.parseAddRest.eq_def] at h
        dsimp only at h
        repeat' split at h
        all_goals first
          | exact Except.noConfusion h
          | exact ih1 _ _ h
          | exact ih2 _ _ h
          | exact ih3 _ _ _ h
          | exact ih4 _ _ h
          | exact ih5 _ _ _ h
          | exact ih6 _ _ h
          | exact ih7 _ _ h
          | exact ih8 _ _ h
          | exact ih9 _ _ h
          | (injection h with hh; subst hh;
              first
                | (dsimp only [Lefi.tokErr, Lefi.eofErr]; decide)
                | exact ih1 _ _ (by assumption)
                | exact ih2 _ _ (by assumption)
                | exact ih3 _ _ _ (by assumption)
                | exact ih4 _ _ (by assumption)
                | exact ih5 _ _ _ (by assumption)
                | exact ih6 _ _ (by assumption)
                | exact ih7 _ _ (by assumption)
                | exact ih8 _ _ (by assumption)
                | exact ih9 _ _ (by assumption))
      · rw [Lefi.parseAdd.eq_def] at h
        dsimp only at h
        repeat' split at h
        all_goals first
          | exact Except.noConfusion h
          | exact ih1 _ _ h
          | exact ih2 _ _ h
          | exact ih3 _ _ _ h
          | exact ih4 _ _ h
          | exact ih5 _ _ _ h
          | exact ih6 _ _ h
          | exact ih7 _ _ h
          | exact ih8 _ _ h
          | exact ih9 _ _ h
          | (injection h with hh; subst hh;
              first
                | (dsimp only [Lefi.tokErr, Lefi.eofErr]; decide)
                | exact ih1 _ _ (by assumption)
                | exact ih2 _ _ (by assumption)
                | exact ih3 _ _ _ (by assumption)
                | exact ih4 _ _ (by assumption)
                | exact ih5 _ _ _ (by assumption)
                | exact ih6 _ _ (by assumption)
                | exact ih7 _ _ (by assumption)
                | exact ih8 _ _ (by assumption)
                | exact ih9 _ _ (by assumption))
      · rw [Lefi.parseExpr.eq_def] at h
        dsimp only at h
        repeat' split at h
        all_goals first
          | exact Except.noConfusion h
          | exact ih1 _ _ h
          | exact ih2 _ _ h
          | exact ih3 _ _ _ h
          | exact ih4 _ _ h
          | exact ih5 _ _ _ h
          | exact ih6 _ _ h
          | exact ih7 _ _ h
          | exact ih8 _ _ h
          | exact ih9 _ _ h
          | (injection h with hh; subst hh;
              first
                | (dsimp only [Lefi.tokErr, Lefi.eofErr]; decide)
                | exact ih1 _ _ (by assumption)
                | exact ih2 _ _ (by assumption)
                | exact ih3 _ _ _ (by assumption)
                | exact ih4 _ _ (by assumption)
                | exact ih5 _ _ _ (by assumption)
                | exact ih6 _ _ (by assumption)
                | exact ih7 _ _ (by assumption)
                | exact ih8 _ _ (by assumption)
                | exact ih9 _ _ (by assumption))
      · rw [Lefi.parseStmt.eq_def] at h
        dsimp only at h
        repeat' split at h
        all_goals first
          | exact Except.noConfusion h
          | exact ih1 _ _ h
          | exact ih2 _ _ h
          | exact ih3 _ _ _ h
          | exact ih4 _ _ h
          | exact ih5 _ _ _ h
          | exact ih6 _ _ h
          | exact ih7 _ _ h
          | exact ih8 _ _ h
          | exact ih9 _ _ h
          | (injection h with hh; subst hh;
              first
                | (dsimp only [Lefi.tokErr, Lefi.eofErr]; decide)
                | exact ih1 _ _ (by assumption)
                | exact ih2 _ _ (by assumption)
                | exact ih3 _ _ _ (by assumption)
                | exact ih4 _ _ (by assumption)
                | exact ih5 _ _ _ (by assumption)
                | exact ih6 _ _ (by assumption)
                | exact ih7 _ _ (by assumption)
                | exact ih8 _ _ (by assumption)
                | exact ih9 _ _ (by assumption))
      · rw [Lefi.parseStmts.eq_def] at h
        dsimp only at h
        repeat' split at h
        all_goals first
          | exact Except.noConfusion h
          | exact ih1 _ _ h
          | exact ih2 _ _ h
          | exact ih3 _ _ _ h
          | exact ih4 _ _ h
          | exact ih5 _ _ _ h
          | exact ih6 _ _ h
          | exact ih7 _ _ h
          | exact ih8 _ _ h
          | exact ih9 _ _ h
          | (injection h with hh; subst hh;
              first
                | (dsimp only [Lefi.tokErr, Lefi.eofErr]; decide)
                | exact ih1 _ _ (by assumption)
                | exact ih2 _ _ (by assumption)
                | exact ih3 _ _ _ (by assumption)
                | exact ih4 _ _ (by assumption)
                | exact ih5 _ _ _ (by assumption)
                | exact ih6 _ _ (by assumption)
                | exact ih7 _ _ (by assumption)
                | exact ih8 _ _ (by assumption)
                | exact ih9 _ _ (by assumption))

/-- Every `parseScript` failure carries a nonempty expectation message. -/
theorem parseScript_err_wf (src : String) (e : Lefi.SyntaxError) :
    Lefi.parseScript src = .error e → e.expected ≠ "" := by
  intro h
  simp only [Lefi.parseScript] at h
  repeat' split at h
  all_goals first
    | exact Except.noConfusion h
    | (injection h with hh; subst hh;
        first
          | (dsimp only [Lefi.tokErr, Lefi.eofErr]; decide)
          | exact tokenize_err _ _ _ _ _ (by assumption)
          | exact (parser_err_wf _).2.2.2.2.2.2.2.2 _ _ (by assumption))

/-- C8.  For every input script text the Parser returns either one complete
root node or a `SyntaxError` carrying the position of the offending token
and a nonempty human-readable expectation — never a partial tree alongside
an error.  Concretely: the documented use-case script parses to a complete
tree, `1 + ;` fails at line 1 column 5 (the misplaced semicolon, the first
malformed token) expecting an expression, and `x = 1 %` fails at line 1
column 7 (the unrecognized `%`). -/
theorem parser_contract :
    (∀ src : String,
      (∃ t, Lefi.parseScript src = .ok t) ∨
      (∃ e, Lefi.parseScript src = .error e ∧ e.expected ≠ "")) ∧
    (∀ (src : String) (t : Lefi.Node) (e : Lefi.SyntaxError),
      Lefi.parseScript src = .ok t → Lefi.parseScript src = .error e → False) ∧
    (∃ t, Lefi.parseScript
      "if stock > 100 then Sell(stock, account, shares); executed = true; end" =
        .ok t) ∧
    Lefi.parseScript "1 + ;" =
      .error ⟨1, 5, "a literal, a variable, or a parenthesized expression"⟩ ∧
    Lefi.parseScript "x = 1 %" = .error ⟨1, 7, "a valid token"⟩ := by
  refine ⟨fun src => ?_, fun src t e h1 h2 => ?_, ⟨_, rfl⟩, rfl, rfl⟩
  · cases hp : Lefi.parseScript src with
    | ok t => exact Or.inl ⟨t, rfl⟩
    | error e => exact Or.inr ⟨e, rfl, parseScript_err_wf src e hp⟩
  · rw [h1] at h2
    exact Except.noConfusion h2
